import Mathlib

/-!
A verification development for the `fillings` crate's `BitsVec`: a bit-packed
vector of fixed-width unsigned elements stored most-significant-bit first
across native machine words.

The embedding models `usize` values as `Nat`, with an explicit `% 2 ^ W`
wherever a left shift of a word could exceed the native word width `W`
(`max_bits` in the structure; the Rust code computes it as
`usize::MAX.count_ones()`).  Panicking operations (`assert!`, out-of-bounds
indexing reached only on contract violation) are modelled as `Option`-valued
functions returning `none` on the panic path.  Loops in
`extend_with_element` are modelled with explicit fuel; fuel exhaustion
returns `none` and is proved unreachable for well-formed vectors.
-/

namespace Fillings

/-- Shallow embedding of the `BitsVec` struct (minus the `PhantomData`
marker): `inner` is the storage word list, `units` the element count,
`bits` the per-element bit width, `max_bits` the native word width and
`leftover` the number of unused low-order bits in the last word. -/
structure BitsVec where
  inner : List Nat
  units : Nat
  bits : Nat
  max_bits : Nat
  leftover : Nat
deriving Repr, DecidableEq

namespace BitsVec

/-- `BitsVec::new(bits)`; `W` is the platform word width
(`usize::MAX.count_ones()`).  The `assert!(bits < max)` is the `none` case. -/
def new (W bits : Nat) : Option BitsVec :=
  if bits < W then
    some { inner := [0], units := 0, bits := bits, max_bits := W, leftover := W }
  else
    none

/-- `BitsVec::push`.  The `assert!(value >> self.bits == 0)` is the `none`
case.  Left shifts are reduced `% 2 ^ max_bits` as on the machine. -/
def push (v : BitsVec) (value : Nat) : Option BitsVec :=
  if value >>> v.bits = 0 then
    let idx := v.inner.length - 1
    if v.leftover < v.bits then
      let left := v.bits - v.leftover
      let inner1 := v.inner.set idx (v.inner.getD idx 0 ||| value >>> left)
      let value1 := if v.leftover ≠ 0 then value &&& ((1 <<< left) - 1) else value
      let inner2 := inner1 ++ [0]
      let shift := v.max_bits - left
      let inner3 := inner2.set (idx + 1)
        (inner2.getD (idx + 1) 0 ||| (value1 <<< shift) % 2 ^ v.max_bits)
      some { v with inner := inner3, units := v.units + 1, leftover := v.max_bits - left }
    else
      let shift := v.leftover - v.bits
      let inner3 := v.inner.set idx (v.inner.getD idx 0 ||| (value <<< shift) % 2 ^ v.max_bits)
      some { v with inner := inner3, units := v.units + 1, leftover := v.leftover - v.bits }
  else
    none

/-- `BitsVec::checked_get`.  Returns `none` ("absence") on an out-of-range
index; this is the recoverable outcome, not a panic. -/
def checked_get (v : BitsVec) (i : Nat) : Option Nat :=
  if i ≥ v.units then
    none
  else
    let idx := i * v.bits / v.max_bits
    let bitsOff := (i * v.bits) % v.max_bits
    let diff := v.max_bits - bitsOff
    let val0 := v.inner.getD idx 0
    let val := if bitsOff ≠ 0 then val0 &&& ((1 <<< diff) - 1) else val0
    if diff ≥ v.bits then
      some (val >>> (diff - v.bits))
    else
      let shift := v.bits - diff
      some ((val <<< shift) % 2 ^ v.max_bits |||
        v.inner.getD (idx + 1) 0 >>> (v.max_bits - shift))

/-- `BitsVec::get`.  The bounds `assert!` is the `none` case; in bounds it
unwraps `checked_get`. -/
def get (v : BitsVec) (i : Nat) : Option Nat :=
  if i < v.units then v.checked_get i else none

/-- `BitsVec::set`.  The two `assert!`s (index in bounds, value fits) are the
`none` cases. -/
def set (v : BitsVec) (i : Nat) (value : Nat) : Option BitsVec :=
  if i < v.units then
    if value >>> v.bits = 0 then
      let idx := i * v.bits / v.max_bits
      let bitsOff := (i * v.bits) % v.max_bits
      let diff := v.max_bits - bitsOff
      let val0 := v.inner.getD idx 0
      if diff ≥ v.bits then
        let shift := diff - v.bits
        let last := val0 &&& ((1 <<< shift) - 1)
        let mask := if bitsOff = 0 then 0 else ((1 <<< bitsOff) - 1) <<< diff
        let val1 := val0 &&& mask
        let val2 := val1 ||| (value <<< shift) % 2 ^ v.max_bits
        some { v with inner := v.inner.set idx (val2 ||| last) }
      else
        let shift := v.bits - diff
        let w1 := (v.inner.getD idx 0 >>> diff) <<< diff |||
          value >>> shift
        let last := value &&& ((1 <<< shift) - 1)
        let w2 := (v.inner.getD (idx + 1) 0 &&& ((1 <<< (v.max_bits - shift)) - 1)) |||
          (last <<< (v.max_bits - shift)) % 2 ^ v.max_bits
        some { v with inner := (v.inner.set idx w1).set (idx + 1) w2 }
    else
      none
  else
    none

/-- `BitsVec::len`. -/
def len (v : BitsVec) : Nat := v.units

/-- `BitsVec::is_empty`. -/
def is_empty (v : BitsVec) : Bool := v.units = 0

/-- `BitsVec::reserve` only grows capacity; it does not change the logical
state, so it is the identity on the abstract state. -/
def reserve (v : BitsVec) (_additional : Nat) : BitsVec := v

/-- `BitsVec::clear`: replaces the vector by `BitsVec::new(self.bits)`
(the platform word width is recomputed, i.e. unchanged). -/
def clear (v : BitsVec) : Option BitsVec := new v.max_bits v.bits

/-- `BitsVec::inner_len`. -/
def inner_len (v : BitsVec) : Nat := v.inner.length

/-- The `PartialEq` impl: `false` if `units` or `bits` differ, otherwise
word-for-word comparison of `inner`. -/
def beqv (a b : BitsVec) : Bool :=
  if a.units ≠ b.units ∨ a.bits ≠ b.bits then
    false
  else
    a.inner == b.inner

/-- `n` sequential `push` calls of the same `value` (the reference behaviour
that `extend_with_element` optimizes, and the final remainder loop
`for _ in 0..remain { self.push(value.clone()) }`). -/
def pushRepeat (v : BitsVec) (value : Nat) : Nat → Option BitsVec
  | 0 => some v
  | n + 1 => (v.push value).bind fun v' => pushRepeat v' value n

/-- Sequential pushes of a list of values, in order. -/
def pushAll (v : BitsVec) : List Nat → Option BitsVec
  | [] => some v
  | x :: xs => (v.push x).bind fun v' => pushAll v' xs

/-- Phase 1 of `extend_with_element`:
`while self.leftover > 0 { self.push(value); remain -= 1; if remain == 0 { return } }`.
`Sum.inl` is the early return, `Sum.inr` carries the word-aligned vector and
the remaining count.  Entering the loop body with `remain = 0` would
underflow `remain` in Rust, hence `none`. -/
def extendPhase1 (value : Nat) : BitsVec → Nat → Option (BitsVec ⊕ BitsVec × Nat)
  | v, 0 => if v.leftover = 0 then some (Sum.inr (v, 0)) else none
  | v, remain + 1 =>
    if v.leftover = 0 then
      some (Sum.inr (v, remain + 1))
    else
      match v.push value with
      | none => none
      | some v' =>
        if remain = 0 then some (Sum.inl v') else extendPhase1 value v' remain

/-- Phase 2 loop of `extend_with_element`:
`while temp.leftover > 0 && remain > 0 { temp.push(value) }`, with fuel.
Fuel exhaustion models divergence and is proved unreachable. -/
def tempLoop (value remain : Nat) : BitsVec → Nat → Option BitsVec
  | t, fuel =>
    if t.leftover = 0 ∨ remain = 0 then
      some t
    else
      match fuel with
      | 0 => none
      | fuel + 1 =>
        match t.push value with
        | none => none
        | some t' => tempLoop value remain t' fuel

/-- Phase 3 loop of `extend_with_element`:
`while remain >= temp.units { self.inner.extend(&temp.inner); self.units += temp.units; remain -= temp.units }`,
with fuel (the loop strictly decreases `remain` by `temp.units ≥ 1` per
iteration for any vector this is actually called on). -/
def extendPhase3 (temp : BitsVec) (value : Nat) : BitsVec → Nat → Nat → Option BitsVec
  | v, remain, fuel =>
    if remain ≥ temp.units then
      match fuel with
      | 0 => none
      | fuel + 1 =>
        extendPhase3 temp value
          { v with inner := v.inner ++ temp.inner, units := v.units + temp.units }
          (remain - temp.units) fuel
    else
      pushRepeat v value remain

/-- `BitsVec::extend_with_element`.  The `assert!(length > self.len())` is
the first `none` case; the three phases follow the source. -/
def extend_with_element (v : BitsVec) (length : Nat) (value : Nat) : Option BitsVec :=
  if length > v.units then
    let remain := length - v.units
    match extendPhase1 value v remain with
    | none => none
    | some (Sum.inl vDone) => some vDone
    | some (Sum.inr (v1, remain1)) =>
      match new v1.max_bits v1.bits with
      | none => none
      | some temp0 =>
        match temp0.push value with
        | none => none
        | some temp1 =>
          match tempLoop value remain1 temp1 v1.max_bits with
          | none => none
          | some temp =>
            if remain1 = 0 then
              some { v1 with inner := v1.inner ++ temp.inner,
                             units := v1.units + temp.units }
            else
              extendPhase3 temp value v1 remain1 remain1
  else
    none

/-- `BitsVec::with_elements(bits, length, value)`. -/
def with_elements (W bits length value : Nat) : Option BitsVec :=
  (new W bits).bind fun v => v.extend_with_element length value

end BitsVec

/-! ## The `ReprUsize` codecs (§ element codec) -/

/-- `impl ReprUsize for bool`, `into_usize` direction (`self as usize`). -/
def boolIntoUsize : Bool → Nat
  | false => 0
  | true => 1

/-- `impl ReprUsize for bool`, `from_usize` direction; the `unreachable!`
arm is the `none` case. -/
def boolFromUsize : Nat → Option Bool
  | 0 => some false
  | 1 => some true
  | _ => none

/-- `impl ReprUsize for char`, `into_usize` (`self as u8 as usize`): the
character is identified with its ordinal, truncated to a byte. -/
def charIntoUsize (c : Nat) : Nat := c % 256

/-- `impl ReprUsize for char`, `from_usize` (`i as u8 as char`): the
resulting character's ordinal. -/
def charFromUsize (i : Nat) : Nat := i % 256

/-- Unsigned integer codec of declared width `N`, `into_usize` direction on
a `W`-bit platform (`self as usize`, a widening or truncating cast). -/
def uintIntoUsize (W x : Nat) : Nat := x % 2 ^ W

/-- Unsigned integer codec of declared width `N`, `from_usize` direction
(`i as $ty`, truncation to `N` bits). -/
def uintFromUsize (N i : Nat) : Nat := i % 2 ^ N

/-- Signed integer codec of declared width `N`, `into_usize` direction on a
`W`-bit platform (`self as usize`: two's-complement, i.e. the value
modulo `2 ^ W`). -/
def sintIntoUsize (W : Nat) (x : Int) : Nat := (x % (2 ^ W : Int)).toNat

/-- Signed integer codec of declared width `N`, `from_usize` direction
(`i as $ty`: truncate to `N` bits, reinterpret in two's complement). -/
def sintFromUsize (N : Nat) (i : Nat) : Int :=
  let r := i % 2 ^ N
  if r < 2 ^ (N - 1) then (r : Int) else (r : Int) - 2 ^ N

/-! ## Big-endian radix-`2 ^ w` valuation

`beVal w l` reads a list as digits of a number, most significant first.
Applied with `w := max_bits` to the storage words it is the concatenated
MSB-first bit-stream of the vector; applied with `w := bits` to the list of
logical elements it is the ideal packed value. -/

/-- Big-endian valuation of `l` as radix-`2 ^ w` digits. -/
def beVal (w : Nat) (l : List Nat) : Nat :=
  l.foldl (fun acc x => acc * 2 ^ w + x) 0

end Fillings

namespace Fillings

/-! ### Arithmetic helpers -/

theorem lor_eq_add {a b k : Nat} (ha : 2 ^ k ∣ a) (hb : b < 2 ^ k) :
    a ||| b = a + b := by
  obtain ⟨q, rfl⟩ := ha
  rw [← Nat.mul_add_lt_is_or hb]

theorem pow_mod_div (x k m : Nat) : x % 2 ^ (k + m) / 2 ^ k = x / 2 ^ k % 2 ^ m := by
  rw [pow_add]
  exact Nat.mod_mul_right_div_self x (2 ^ k) (2 ^ m)

theorem mod_split (x u v : Nat) :
    x % 2 ^ (v + u) = x / 2 ^ v % 2 ^ u * 2 ^ v + x % 2 ^ v := by
  conv_lhs => rw [← Nat.div_add_mod (x % 2 ^ (v + u)) (2 ^ v)]
  rw [pow_mod_div, Nat.mod_mod_of_dvd x (pow_dvd_pow 2 (Nat.le_add_right v u)),
    Nat.mul_comm]

theorem and_shiftLeft_mask (x k m : Nat) :
    x &&& (2 ^ k - 1) <<< m = x / 2 ^ m % 2 ^ k * 2 ^ m := by
  apply Nat.eq_of_testBit_eq
  intro j
  rcases Nat.lt_or_ge j m with hj | hj
  · rw [Nat.testBit_and, Nat.testBit_shiftLeft]
    have h1 : decide (m ≤ j) = false := by simp [Nat.not_le.mpr hj]
    rw [h1, Bool.false_and, Bool.and_false]
    have h2 : x / 2 ^ m % 2 ^ k * 2 ^ m = 2 ^ m * (x / 2 ^ m % 2 ^ k) := by ring
    rw [h2, Nat.testBit_mul_pow_two]
    simp [Nat.not_le.mpr hj]
  · rw [Nat.testBit_and, Nat.testBit_shiftLeft, Nat.testBit_two_pow_sub_one]
    have h2 : x / 2 ^ m % 2 ^ k * 2 ^ m = 2 ^ m * (x / 2 ^ m % 2 ^ k) := by ring
    rw [h2, Nat.testBit_mul_pow_two, Nat.testBit_mod_two_pow]
    have hd : x / 2 ^ m = x >>> m := (Nat.shiftRight_eq_div_pow x m).symm
    rw [hd, Nat.testBit_shiftRight]
    have hm : m + (j - m) = j := by omega
    rw [hm]
    simp [hj, Bool.and_comm, Bool.and_left_comm, Bool.and_assoc]

theorem shiftRight_eq_zero_iff {x b : Nat} : x >>> b = 0 ↔ x < 2 ^ b := by
  rw [Nat.shiftRight_eq_div_pow]
  exact Nat.div_eq_zero_iff (Nat.pos_pow_of_pos b (by norm_num))

/-! ### Big-endian valuation lemmas -/

theorem beVal_nil (w : Nat) : beVal w [] = 0 := rfl

theorem beVal_foldl_acc (w : Nat) (l : List Nat) (acc : Nat) :
    l.foldl (fun a x => a * 2 ^ w + x) acc = acc * 2 ^ (l.length * w) + beVal w l := by
  induction l generalizing acc with
  | nil => simp [beVal]
  | cons y ys ih =>
    show ys.foldl (fun a x => a * 2 ^ w + x) (acc * 2 ^ w + y) = _
    rw [ih (acc * 2 ^ w + y)]
    show _ = acc * 2 ^ ((ys.length + 1) * w) + beVal w (y :: ys)
    have hc : beVal w (y :: ys) = ys.foldl (fun a x => a * 2 ^ w + x) y := by
      simp [beVal]
    rw [hc, ih y]
    have hp : (ys.length + 1) * w = ys.length * w + w := by ring
    rw [hp, pow_add]
    ring

theorem beVal_cons (w y : Nat) (ys : List Nat) :
    beVal w (y :: ys) = y * 2 ^ (ys.length * w) + beVal w ys := by
  have hc : beVal w (y :: ys) = ys.foldl (fun a x => a * 2 ^ w + x) y := by
    simp [beVal]
  rw [hc, beVal_foldl_acc]

theorem beVal_append_singleton (w x : Nat) (l : List Nat) :
    beVal w (l ++ [x]) = beVal w l * 2 ^ w + x := by
  unfold beVal
  rw [List.foldl_append]
  rfl

theorem beVal_lt (w : Nat) (l : List Nat) (h : ∀ x ∈ l, x < 2 ^ w) :
    beVal w l < 2 ^ (l.length * w) := by
  induction l with
  | nil => simp [beVal]
  | cons y ys ih =>
    rw [beVal_cons]
    have hy : y < 2 ^ w := h y (List.mem_cons_self y ys)
    have hys : beVal w ys < 2 ^ (ys.length * w) := ih fun x hx => h x (List.mem_cons_of_mem y hx)
    have h1 : y * 2 ^ (ys.length * w) + beVal w ys <
        y * 2 ^ (ys.length * w) + 2 ^ (ys.length * w) := by omega
    have h2 : y * 2 ^ (ys.length * w) + 2 ^ (ys.length * w) =
        (y + 1) * 2 ^ (ys.length * w) := by ring
    have h3 : (y + 1) * 2 ^ (ys.length * w) ≤ 2 ^ w * 2 ^ (ys.length * w) :=
      Nat.mul_le_mul_right _ hy
    calc y * 2 ^ (ys.length * w) + beVal w ys
        < (y + 1) * 2 ^ (ys.length * w) := by omega
      _ ≤ 2 ^ w * 2 ^ (ys.length * w) := h3
      _ = 2 ^ ((y :: ys).length * w) := by
          rw [← pow_add, List.length_cons]; ring_nf


theorem beVal_getD (w : Nat) (l : List Nat) (h : ∀ x ∈ l, x < 2 ^ w) :
    ∀ i, i < l.length →
      l.getD i 0 = beVal w l / 2 ^ ((l.length - 1 - i) * w) % 2 ^ w := by
  induction l with
  | nil => intro i hi; simp at hi
  | cons y ys ih =>
    intro i hi
    have hy : y < 2 ^ w := h y (List.mem_cons_self y ys)
    have hys : ∀ x ∈ ys, x < 2 ^ w := fun x hx => h x (List.mem_cons_of_mem y hx)
    have hyslt : beVal w ys < 2 ^ (ys.length * w) := beVal_lt w ys hys
    rcases i with _ | i
    · have he : (y :: ys).length - 1 - 0 = ys.length := by simp
      rw [beVal_cons, he]
      have h1 : y * 2 ^ (ys.length * w) + beVal w ys =
          beVal w ys + 2 ^ (ys.length * w) * y := by ring
      rw [h1, Nat.add_mul_div_left _ _ (Nat.pos_pow_of_pos _ (by norm_num)),
        Nat.div_eq_of_lt hyslt, Nat.zero_add, Nat.mod_eq_of_lt hy]
      rfl
    · have hi' : i < ys.length := by simpa using hi
      have he : (y :: ys).length - 1 - (i + 1) = ys.length - 1 - i := by
        simp; omega
      rw [beVal_cons, he]
      have hew : (ys.length - 1 - i) * w + w ≤ ys.length * w := by
        have : (ys.length - 1 - i) + 1 ≤ ys.length := by omega
        calc (ys.length - 1 - i) * w + w = ((ys.length - 1 - i) + 1) * w := by ring
          _ ≤ ys.length * w := Nat.mul_le_mul_right _ this
      have h1 : y * 2 ^ (ys.length * w) + beVal w ys =
          beVal w ys + 2 ^ ((ys.length - 1 - i) * w) *
            (y * 2 ^ (ys.length * w - (ys.length - 1 - i) * w - w) * 2 ^ w) := by
        have h2 : (ys.length - 1 - i) * w +
            (ys.length * w - (ys.length - 1 - i) * w - w) + w = ys.length * w := by
          omega
        calc y * 2 ^ (ys.length * w) + beVal w ys
            = beVal w ys + y * 2 ^ ((ys.length - 1 - i) * w +
                (ys.length * w - (ys.length - 1 - i) * w - w) + w) := by rw [h2]; ring
          _ = beVal w ys + 2 ^ ((ys.length - 1 - i) * w) *
              (y * 2 ^ (ys.length * w - (ys.length - 1 - i) * w - w) * 2 ^ w) := by
                rw [pow_add, pow_add]; ring
      rw [h1, Nat.add_mul_div_left _ _ (Nat.pos_pow_of_pos _ (by norm_num))]
      have h3 : beVal w ys / 2 ^ ((ys.length - 1 - i) * w) +
          y * 2 ^ (ys.length * w - (ys.length - 1 - i) * w - w) * 2 ^ w =
          beVal w ys / 2 ^ ((ys.length - 1 - i) * w) +
          (y * 2 ^ (ys.length * w - (ys.length - 1 - i) * w - w)) * 2 ^ w := by ring
      rw [h3, Nat.add_mul_mod_self_right]
      exact ih hys i hi'

theorem beVal_set (w x : Nat) (l : List Nat) :
    ∀ i, i < l.length →
      beVal w (l.set i x) + l.getD i 0 * 2 ^ ((l.length - 1 - i) * w) =
        beVal w l + x * 2 ^ ((l.length - 1 - i) * w) := by
  induction l with
  | nil => intro i hi; simp at hi
  | cons y ys ih =>
    intro i hi
    rcases i with _ | i
    · show beVal w (x :: ys) + y * 2 ^ (((y :: ys).length - 1 - 0) * w) = _
      have he : (y :: ys).length - 1 - 0 = ys.length := by simp
      rw [he, beVal_cons, beVal_cons]
      ring
    · have hi' : i < ys.length := by simpa using hi
      show beVal w (y :: ys.set i x) + ys.getD i 0 * 2 ^ (((y :: ys).length - 1 - (i + 1)) * w) = _
      have he : (y :: ys).length - 1 - (i + 1) = ys.length - 1 - i := by
        simp; omega
      rw [he, beVal_cons, beVal_cons, List.length_set]
      have := ih i hi'
      omega

/-! ### List helpers -/

theorem set_append_singleton_length (m : List Nat) (y c : Nat) :
    (m ++ [y]).set m.length c = m ++ [c] := by
  induction m with
  | nil => rfl
  | cons a as ih => simp [List.set, ih]

theorem getD_append_singleton_length (m : List Nat) (y : Nat) :
    (m ++ [y]).getD m.length 0 = y := by
  induction m with
  | nil => rfl
  | cons a as ih => exact ih

theorem set_append_singleton_of_eq (m : List Nat) (y c k : Nat) (hk : k = m.length) :
    (m ++ [y]).set k c = m ++ [c] := by
  subst hk
  exact set_append_singleton_length m y c

theorem getD_append_singleton_of_eq (m : List Nat) (y k : Nat) (hk : k = m.length) :
    (m ++ [y]).getD k 0 = y := by
  subst hk
  exact getD_append_singleton_length m y

/-! ### The representation invariant

`Models v vals` says that `v` is a well-formed packed vector whose decoded
element sequence is `vals`: the bookkeeping fields are consistent
(`inner` is non-empty, `leftover ≤ max_bits`, and the bit accounting
`inner.length * max_bits = units * bits + leftover` holds), every storage
word fits in a machine word, and the MSB-first concatenation of the storage
words equals the ideal packed value `beVal bits vals` followed by
`leftover` zero bits. -/
def Models (v : BitsVec) (vals : List Nat) : Prop :=
  v.bits < v.max_bits ∧
  v.units = vals.length ∧
  (∀ x ∈ vals, x < 2 ^ v.bits) ∧
  v.inner ≠ [] ∧
  (∀ w ∈ v.inner, w < 2 ^ v.max_bits) ∧
  v.leftover ≤ v.max_bits ∧
  v.inner.length * v.max_bits = v.units * v.bits + v.leftover ∧
  (v.leftover = v.max_bits ↔ v.units * v.bits = 0) ∧
  beVal v.max_bits v.inner = beVal v.bits vals * 2 ^ v.leftover

instance (v : BitsVec) (vals : List Nat) : Decidable (Models v vals) := by
  unfold Models
  infer_instance


theorem models_new {W bits : Nat} (h : bits < W) :
    BitsVec.new W bits = some ⟨[0], 0, bits, W, W⟩ ∧
      Models ⟨[0], 0, bits, W, W⟩ [] := by
  constructor
  · simp [BitsVec.new, h]
  · unfold Models
    refine ⟨h, rfl, by simp, by simp, ?_, le_refl _, by simp, by simp, by simp [beVal]⟩
    intro w hw
    simp only [List.mem_singleton] at hw
    subst hw
    exact Nat.pos_pow_of_pos _ (by norm_num)

/-- The last storage word is the bit stream modulo one machine word. -/
theorem last_word_eq {v : BitsVec} (hw : ∀ w ∈ v.inner, w < 2 ^ v.max_bits)
    (hne : v.inner ≠ []) :
    v.inner.getD (v.inner.length - 1) 0 = beVal v.max_bits v.inner % 2 ^ v.max_bits := by
  have hL : 0 < v.inner.length := List.length_pos.mpr hne
  have := beVal_getD v.max_bits v.inner hw (v.inner.length - 1) (by omega)
  rw [this]
  have he : (v.inner.length - 1 - (v.inner.length - 1)) * v.max_bits = 0 := by
    simp
  rw [he, pow_zero, Nat.div_one]

/-- A word with its low `ℓ` bits clear stays below `2 ^ W` after adding a
value below `2 ^ ℓ`. -/
theorem add_low_lt {w s W ℓ : Nat} (hw : w < 2 ^ W) (hd : 2 ^ ℓ ∣ w)
    (hs : s < 2 ^ ℓ) (hℓ : ℓ ≤ W) : w + s < 2 ^ W := by
  obtain ⟨q, rfl⟩ := hd
  have hWe : 2 ^ W = 2 ^ ℓ * 2 ^ (W - ℓ) := by
    rw [← pow_add]
    congr 1
    omega
  have hq : q < 2 ^ (W - ℓ) := by
    by_contra hq
    push_neg at hq
    have : 2 ^ ℓ * 2 ^ (W - ℓ) ≤ 2 ^ ℓ * q := Nat.mul_le_mul_left _ hq
    omega
  calc 2 ^ ℓ * q + s < 2 ^ ℓ * q + 2 ^ ℓ := by omega
    _ = 2 ^ ℓ * (q + 1) := by ring
    _ ≤ 2 ^ ℓ * 2 ^ (W - ℓ) := Nat.mul_le_mul_left _ (by omega)
    _ = 2 ^ W := hWe.symm

/-- Explicit form of `push` in the fits-in-current-word branch
(`leftover ≥ bits`): the value lands in the last word, left-aligned at the
fill point. -/
theorem push_eq_of_le {v : BitsVec} {x : Nat} (hx : x < 2 ^ v.bits)
    (hble : v.bits ≤ v.leftover) (hl : v.leftover ≤ v.max_bits)
    (hdvd : 2 ^ v.leftover ∣ v.inner.getD (v.inner.length - 1) 0) :
    v.push x = some ⟨v.inner.set (v.inner.length - 1)
        (v.inner.getD (v.inner.length - 1) 0 + x * 2 ^ (v.leftover - v.bits)),
      v.units + 1, v.bits, v.max_bits, v.leftover - v.bits⟩ := by
  have hxs : x * 2 ^ (v.leftover - v.bits) < 2 ^ v.leftover := by
    have h1 : 2 ^ v.leftover = 2 ^ v.bits * 2 ^ (v.leftover - v.bits) := by
      rw [← pow_add]
      congr 1
      omega
    rw [h1]
    exact mul_lt_mul_of_pos_right hx (by positivity)
  have hxsW : x * 2 ^ (v.leftover - v.bits) < 2 ^ v.max_bits :=
    lt_of_lt_of_le hxs (Nat.pow_le_pow_right (by norm_num) hl)
  unfold BitsVec.push
  rw [if_pos (shiftRight_eq_zero_iff.mpr hx), if_neg (by omega)]
  simp only [Nat.shiftLeft_eq]
  rw [Nat.mod_eq_of_lt hxsW,
    lor_eq_add hdvd hxs]

/-- Explicit form of `push` in the word-spanning branch
(`leftover < bits`): the high `leftover` bits of the value complete the last
word and the low `bits - leftover` bits open a fresh word. -/
theorem push_eq_of_lt {v : BitsVec} {x : Nat} (hx : x < 2 ^ v.bits)
    (hblt : v.leftover < v.bits) (hb : v.bits < v.max_bits)
    (hne : v.inner ≠ [])
    (hdvd : 2 ^ v.leftover ∣ v.inner.getD (v.inner.length - 1) 0) :
    v.push x = some ⟨(v.inner.set (v.inner.length - 1)
        (v.inner.getD (v.inner.length - 1) 0 + x / 2 ^ (v.bits - v.leftover))) ++
        [x % 2 ^ (v.bits - v.leftover) * 2 ^ (v.max_bits - (v.bits - v.leftover))],
      v.units + 1, v.bits, v.max_bits, v.max_bits - (v.bits - v.leftover)⟩ := by
  set W := v.max_bits with hWdef
  set b := v.bits with hbdef
  set ℓ := v.leftover with hldef
  set left := b - ℓ with hleftdef
  have hxhi : x / 2 ^ left < 2 ^ ℓ := by
    rw [Nat.div_lt_iff_lt_mul (Nat.pos_pow_of_pos _ (by norm_num)), ← pow_add]
    have he : left + ℓ = b := by omega
    calc x < 2 ^ b := hx
      _ = 2 ^ (ℓ + left) := by congr 1; omega
  have hlo : x % 2 ^ left * 2 ^ (W - left) < 2 ^ W := by
    have h1 : x % 2 ^ left < 2 ^ left := Nat.mod_lt _ (Nat.pos_pow_of_pos _ (by norm_num))
    have h2 : 2 ^ W = 2 ^ left * 2 ^ (W - left) := by
      rw [← pow_add]
      congr 1
      omega
    rw [h2]
    exact mul_lt_mul_of_pos_right h1 (by positivity)
  have hval1 : (if ℓ ≠ 0 then x &&& 1 <<< left - 1 else x) = x % 2 ^ left := by
    by_cases hℓ0 : ℓ = 0
    · have hlb : left = b := by omega
      rw [if_neg (by simpa using hℓ0), hlb, Nat.mod_eq_of_lt hx]
    · rw [if_pos hℓ0, Nat.one_shiftLeft, Nat.and_pow_two_sub_one_eq_mod]
  have hL : 0 < v.inner.length := List.length_pos.mpr hne
  unfold BitsVec.push
  rw [if_pos (shiftRight_eq_zero_iff.mpr hx), if_pos (by omega)]
  simp only [hval1]
  rw [Nat.shiftRight_eq_div_pow, Nat.shiftLeft_eq,
    lor_eq_add hdvd hxhi, Nat.mod_eq_of_lt hlo]
  have hidx : v.inner.length - 1 + 1 = v.inner.length := by omega
  rw [hidx]
  have hlen1 : v.inner.length = (v.inner.set (v.inner.length - 1)
      (v.inner.getD (v.inner.length - 1) 0 + x / 2 ^ left)).length := by
    simp
  rw [getD_append_singleton_of_eq _ _ _ hlen1, set_append_singleton_of_eq _ _ _ _ hlen1]
  rw [Nat.zero_or]

/-- `push` of an in-range value on a well-formed vector succeeds, appends
the value to the decoded sequence, and performs the documented bookkeeping
transitions. -/
theorem push_models {v : BitsVec} {vals : List Nat} {x : Nat}
    (hM : Models v vals) (hx : x < 2 ^ v.bits) :
    ∃ v', v.push x = some v' ∧ Models v' (vals ++ [x]) ∧
      v'.bits = v.bits ∧ v'.max_bits = v.max_bits ∧ v'.units = v.units + 1 ∧
      v'.leftover = (if v.bits ≤ v.leftover then v.leftover - v.bits
        else v.max_bits - (v.bits - v.leftover)) := by
  obtain ⟨hb, hu, hv, hne, hw, hl, hsh, hfull, hval⟩ := hM
  have hL : 0 < v.inner.length := List.length_pos.mpr hne
  have hlast := last_word_eq hw hne
  have hSmod : beVal v.max_bits v.inner % 2 ^ v.max_bits % 2 ^ v.leftover = 0 := by
    rw [Nat.mod_mod_of_dvd _ (pow_dvd_pow 2 hl), hval, Nat.mul_mod_left]
  have hdvd : 2 ^ v.leftover ∣ v.inner.getD (v.inner.length - 1) 0 := by
    rw [hlast]
    exact Nat.dvd_of_mod_eq_zero hSmod
  have hwlt : v.inner.getD (v.inner.length - 1) 0 < 2 ^ v.max_bits := by
    rw [hlast]
    exact Nat.mod_lt _ (by positivity)
  have hPapp : beVal v.bits (vals ++ [x]) = beVal v.bits vals * 2 ^ v.bits + x :=
    beVal_append_singleton v.bits x vals
  by_cases hcase : v.bits ≤ v.leftover
  · -- the value fits in the current word
    have hxs : x * 2 ^ (v.leftover - v.bits) < 2 ^ v.leftover := by
      have h1 : 2 ^ v.leftover = 2 ^ v.bits * 2 ^ (v.leftover - v.bits) := by
        rw [← pow_add]
        congr 1
        omega
      rw [h1]
      exact mul_lt_mul_of_pos_right hx (by positivity)
    rw [push_eq_of_le hx hcase hl hdvd]
    refine ⟨_, rfl, ?_, rfl, rfl, rfl, by rw [if_pos hcase]⟩
    have hset := beVal_set v.max_bits
      (v.inner.getD (v.inner.length - 1) 0 + x * 2 ^ (v.leftover - v.bits))
      v.inner (v.inner.length - 1) (by omega)
    have he0 : (v.inner.length - 1 - (v.inner.length - 1)) * v.max_bits = 0 := by simp
    rw [he0, pow_zero, mul_one, mul_one] at hset
    unfold Models
    dsimp only
    refine ⟨hb, by simp [hu], ?_, ?_, ?_, by omega, ?_, ?_, ?_⟩
    · intro y hy
      rcases List.mem_append.mp hy with h | h
      · exact hv y h
      · rw [List.mem_singleton.mp h]
        exact hx
    · simp only [ne_eq, List.set_eq_nil_iff]
      exact hne
    · intro y hy
      rcases List.mem_or_eq_of_mem_set hy with h | h
      · exact hw y h
      · rw [h]
        exact add_low_lt hwlt hdvd hxs hl
    · simp only [List.length_set]
      have e1 : (v.units + 1) * v.bits = v.units * v.bits + v.bits := by ring
      omega
    · constructor
      · intro h
        have hb0 : v.bits = 0 := by omega
        simp [hb0]
      · intro h
        have hb0 : v.bits = 0 := by
          rcases Nat.mul_eq_zero.mp h with h' | h'
          · omega
          · exact h'
        have : v.units * v.bits = 0 := by simp [hb0]
        have := hfull.mpr this
        omega
    · have hbv : beVal v.max_bits (v.inner.set (v.inner.length - 1)
          (v.inner.getD (v.inner.length - 1) 0 + x * 2 ^ (v.leftover - v.bits))) =
          beVal v.max_bits v.inner + x * 2 ^ (v.leftover - v.bits) := by omega
      rw [hbv, hval, hPapp]
      have h2 : 2 ^ v.leftover = 2 ^ v.bits * 2 ^ (v.leftover - v.bits) := by
        rw [← pow_add]
        congr 1
        omega
      rw [h2]
      ring
  · -- the value spans into a fresh word
    push_neg at hcase
    have hxhi : x / 2 ^ (v.bits - v.leftover) < 2 ^ v.leftover := by
      rw [Nat.div_lt_iff_lt_mul (by positivity), ← pow_add]
      calc x < 2 ^ v.bits := hx
        _ = 2 ^ (v.leftover + (v.bits - v.leftover)) := by congr 1; omega
    have hlo : x % 2 ^ (v.bits - v.leftover) *
        2 ^ (v.max_bits - (v.bits - v.leftover)) < 2 ^ v.max_bits := by
      have h1 : x % 2 ^ (v.bits - v.leftover) < 2 ^ (v.bits - v.leftover) :=
        Nat.mod_lt _ (by positivity)
      have h2 : 2 ^ v.max_bits = 2 ^ (v.bits - v.leftover) *
          2 ^ (v.max_bits - (v.bits - v.leftover)) := by
        rw [← pow_add]
        congr 1
        omega
      rw [h2]
      exact mul_lt_mul_of_pos_right h1 (by positivity)
    rw [push_eq_of_lt hx hcase hb hne hdvd]
    refine ⟨_, rfl, ?_, rfl, rfl, rfl, by rw [if_neg (by omega)]⟩
    have hset := beVal_set v.max_bits
      (v.inner.getD (v.inner.length - 1) 0 + x / 2 ^ (v.bits - v.leftover))
      v.inner (v.inner.length - 1) (by omega)
    have he0 : (v.inner.length - 1 - (v.inner.length - 1)) * v.max_bits = 0 := by simp
    rw [he0, pow_zero, mul_one, mul_one] at hset
    unfold Models
    dsimp only
    refine ⟨hb, by simp [hu], ?_, by simp, ?_, by omega, ?_, ?_, ?_⟩
    · intro y hy
      rcases List.mem_append.mp hy with h | h
      · exact hv y h
      · rw [List.mem_singleton.mp h]
        exact hx
    · intro y hy
      rcases List.mem_append.mp hy with h | h
      · rcases List.mem_or_eq_of_mem_set h with h' | h'
        · exact hw y h'
        · rw [h']
          exact add_low_lt hwlt hdvd hxhi hl
      · rw [List.mem_singleton.mp h]
        exact hlo
    · simp only [List.length_append, List.length_set, List.length_singleton]
      have e1 : (v.inner.length + 1) * v.max_bits = v.inner.length * v.max_bits +
        v.max_bits := by ring
      have e2 : (v.units + 1) * v.bits = v.units * v.bits + v.bits := by ring
      omega
    · constructor
      · intro h
        omega
      · intro h
        have hb0 : v.bits = 0 := by
          rcases Nat.mul_eq_zero.mp h with h' | h'
          · omega
          · exact h'
        omega
    · rw [beVal_append_singleton]
      have hbv : beVal v.max_bits (v.inner.set (v.inner.length - 1)
          (v.inner.getD (v.inner.length - 1) 0 + x / 2 ^ (v.bits - v.leftover))) =
          beVal v.max_bits v.inner + x / 2 ^ (v.bits - v.leftover) := by omega
      rw [hbv, hval, hPapp]
      -- pure polynomial identity once the powers are split
      have hcd : 2 ^ v.max_bits = 2 ^ (v.bits - v.leftover) *
          2 ^ (v.max_bits - (v.bits - v.leftover)) := by
        rw [← pow_add]
        congr 1
        omega
      have hac : 2 ^ v.bits = 2 ^ v.leftover * 2 ^ (v.bits - v.leftover) := by
        rw [← pow_add]
        congr 1
        omega
      obtain ⟨q, r, hqr, hrlt, hq, hr⟩ :
          ∃ q r, x = 2 ^ (v.bits - v.leftover) * q + r ∧
            r < 2 ^ (v.bits - v.leftover) ∧
            q = x / 2 ^ (v.bits - v.leftover) ∧ r = x % 2 ^ (v.bits - v.leftover) := by
        exact ⟨_, _, (Nat.div_add_mod x _).symm, Nat.mod_lt _ (by positivity), rfl, rfl⟩
      rw [← hq, ← hr, hqr, hcd, hac]
      ring

/-! ### Random-access read correctness -/

theorem mul_add_bound {i n b : Nat} (hi : i < n) : i * b + b ≤ n * b := by
  have h1 : (i + 1) * b ≤ n * b := Nat.mul_le_mul_right b (by omega)
  calc i * b + b = (i + 1) * b := by ring
    _ ≤ n * b := h1

theorem mod_pow_div_sub (x a b : Nat) (h : b ≤ a) :
    x % 2 ^ a / 2 ^ (a - b) = x / 2 ^ (a - b) % 2 ^ b := by
  obtain ⟨c, rfl⟩ : ∃ c, a = c + b := ⟨a - b, by omega⟩
  rw [Nat.add_sub_cancel, pow_mod_div]

/-- The word index `i * bits / max_bits` read by `checked_get`/`set` is in
bounds for any in-range element index. -/
theorem get_idx_lt {v : BitsVec} {vals : List Nat} (hM : Models v vals)
    {i : Nat} (hi : i < v.units) :
    i * v.bits / v.max_bits < v.inner.length := by
  obtain ⟨hb, hu, hv, hne, hw, hl, hsh, hfull, hval⟩ := hM
  have hL : 0 < v.inner.length := List.length_pos.mpr hne
  have hW : 0 < v.max_bits := by omega
  rcases Nat.eq_zero_or_pos v.bits with hb0 | hbpos
  · rw [hb0, Nat.mul_zero, Nat.zero_div]
    exact hL
  · rw [Nat.div_lt_iff_lt_mul hW]
    have h1 := mul_add_bound (b := v.bits) hi
    omega

/-- In the word-spanning case, the second word index `i * bits / max_bits + 1`
is also in bounds. -/
theorem get_idx_succ_lt {v : BitsVec} {vals : List Nat} (hM : Models v vals)
    {i : Nat} (hi : i < v.units)
    (hspan : v.max_bits - i * v.bits % v.max_bits < v.bits) :
    i * v.bits / v.max_bits + 1 < v.inner.length := by
  obtain ⟨hb, hu, hv, hne, hw, hl, hsh, hfull, hval⟩ := hM
  have hL : 0 < v.inner.length := List.length_pos.mpr hne
  have hW : 0 < v.max_bits := by omega
  have hofflt : i * v.bits % v.max_bits < v.max_bits := Nat.mod_lt _ hW
  have hdm : v.max_bits * (i * v.bits / v.max_bits) + i * v.bits % v.max_bits
      = i * v.bits := Nat.div_add_mod _ _
  have h1 := mul_add_bound (b := v.bits) hi
  have h3 : v.max_bits * (i * v.bits / v.max_bits + 1)
      = v.max_bits * (i * v.bits / v.max_bits) + v.max_bits := by ring
  have h4 : v.max_bits * v.inner.length = v.inner.length * v.max_bits := by ring
  have h5 : v.max_bits * (i * v.bits / v.max_bits + 1) < v.max_bits * v.inner.length := by
    omega
  exact Nat.lt_of_mul_lt_mul_left h5

/-- The element at index `i` occupies the `bits` stream bits ending
`(i + 1) * bits` bits from the top; extracting them from the concatenated
stream yields exactly `vals.getD i 0`. -/
theorem stream_elem {v : BitsVec} {vals : List Nat} (hM : Models v vals)
    {i : Nat} (hi : i < v.units) :
    beVal v.max_bits v.inner / 2 ^ (v.inner.length * v.max_bits - (i + 1) * v.bits)
      % 2 ^ v.bits = vals.getD i 0 := by
  obtain ⟨hb, hu, hv, hne, hw, hl, hsh, hfull, hval⟩ := hM
  have hn : i < vals.length := by omega
  rw [beVal_getD v.bits vals hv i hn]
  have hsplitn : vals.length * v.bits =
      (i + 1) * v.bits + (vals.length - 1 - i) * v.bits := by
    have h6 : (i + 1) + (vals.length - 1 - i) = vals.length := by omega
    calc vals.length * v.bits = ((i + 1) + (vals.length - 1 - i)) * v.bits := by rw [h6]
      _ = (i + 1) * v.bits + (vals.length - 1 - i) * v.bits := by ring
  have hshl : v.inner.length * v.max_bits = vals.length * v.bits + v.leftover := by
    rw [← hu]
    exact hsh
  have hE : v.inner.length * v.max_bits - (i + 1) * v.bits =
      v.leftover + (vals.length - 1 - i) * v.bits := by
    omega
  rw [hval, hE, pow_add, ← Nat.div_div_eq_div_mul,
    Nat.mul_div_cancel _ (by positivity)]

/-- `checked_get` decodes exactly the `i`-th element of the decoded
sequence, for every in-range index. -/
theorem checked_get_models {v : BitsVec} {vals : List Nat} (hM : Models v vals)
    {i : Nat} (hi : i < v.units) :
    v.checked_get i = some (vals.getD i 0) := by
  have hidx := get_idx_lt hM hi
  have hstream := stream_elem hM hi
  have hM' := hM
  obtain ⟨hb, hu, hv, hne, hw, hl, hsh, hfull, hval⟩ := hM
  have hL : 0 < v.inner.length := List.length_pos.mpr hne
  have hW : 0 < v.max_bits := by omega
  have hofflt : i * v.bits % v.max_bits < v.max_bits := Nat.mod_lt _ hW
  have hdm : v.max_bits * (i * v.bits / v.max_bits) + i * v.bits % v.max_bits
      = i * v.bits := Nat.div_add_mod _ _
  have hword := beVal_getD v.max_bits v.inner hw _ hidx
  have hsplitL : (v.inner.length - 1 - i * v.bits / v.max_bits) * v.max_bits +
      (i * v.bits / v.max_bits) * v.max_bits + v.max_bits =
      v.inner.length * v.max_bits := by
    have h6 : (v.inner.length - 1 - i * v.bits / v.max_bits) +
        (i * v.bits / v.max_bits) + 1 = v.inner.length := by omega
    calc (v.inner.length - 1 - i * v.bits / v.max_bits) * v.max_bits +
        (i * v.bits / v.max_bits) * v.max_bits + v.max_bits =
        ((v.inner.length - 1 - i * v.bits / v.max_bits) +
          (i * v.bits / v.max_bits) + 1) * v.max_bits := by ring
      _ = v.inner.length * v.max_bits := by rw [h6]
  have hcm : (i * v.bits / v.max_bits) * v.max_bits =
      v.max_bits * (i * v.bits / v.max_bits) := by ring
  have hib1 : (i + 1) * v.bits = i * v.bits + v.bits := by ring
  have hbnd := mul_add_bound (b := v.bits) hi
  unfold BitsVec.checked_get
  rw [if_neg (by omega)]
  dsimp only
  -- the masked word is a slice of the bit stream in either case
  have hval_eq : (if i * v.bits % v.max_bits ≠ 0 then
      v.inner.getD (i * v.bits / v.max_bits) 0 &&&
        (1 <<< (v.max_bits - i * v.bits % v.max_bits)) - 1
      else v.inner.getD (i * v.bits / v.max_bits) 0) =
      beVal v.max_bits v.inner /
        2 ^ ((v.inner.length - 1 - i * v.bits / v.max_bits) * v.max_bits) %
        2 ^ (v.max_bits - i * v.bits % v.max_bits) := by
    by_cases hoff : i * v.bits % v.max_bits = 0
    · rw [if_neg (by simpa using hoff), hword, hoff, Nat.sub_zero]
    · rw [if_pos hoff, Nat.one_shiftLeft, Nat.and_pow_two_sub_one_eq_mod, hword,
        Nat.mod_mod_of_dvd _ (pow_dvd_pow 2 (by omega))]
  by_cases hcase : v.max_bits - i * v.bits % v.max_bits ≥ v.bits
  · -- the element lies entirely within one word
    rw [if_pos hcase]
    refine congrArg some ?_
    rw [hval_eq, Nat.shiftRight_eq_div_pow,
      mod_pow_div_sub _ _ _ hcase, Nat.div_div_eq_div_mul, ← pow_add]
    have he : (v.inner.length - 1 - i * v.bits / v.max_bits) * v.max_bits +
        (v.max_bits - i * v.bits % v.max_bits - v.bits) =
        v.inner.length * v.max_bits - (i + 1) * v.bits := by
      omega
    rw [he]
    exact hstream
  · -- the element spans two adjacent words
    push_neg at hcase
    have hidx2 := get_idx_succ_lt hM' hi hcase
    have hword2 := beVal_getD v.max_bits v.inner hw _ hidx2
    have hsplitL2 : (v.inner.length - 1 - (i * v.bits / v.max_bits + 1)) * v.max_bits +
        (i * v.bits / v.max_bits) * v.max_bits + v.max_bits + v.max_bits =
        v.inner.length * v.max_bits := by
      have h6 : (v.inner.length - 1 - (i * v.bits / v.max_bits + 1)) +
          (i * v.bits / v.max_bits) + 2 = v.inner.length := by omega
      calc (v.inner.length - 1 - (i * v.bits / v.max_bits + 1)) * v.max_bits +
          (i * v.bits / v.max_bits) * v.max_bits + v.max_bits + v.max_bits =
          ((v.inner.length - 1 - (i * v.bits / v.max_bits + 1)) +
            (i * v.bits / v.max_bits) + 2) * v.max_bits := by ring
        _ = v.inner.length * v.max_bits := by rw [h6]
    rw [if_neg (by omega)]
    refine congrArg some ?_
    have hvlt : beVal v.max_bits v.inner /
        2 ^ ((v.inner.length - 1 - i * v.bits / v.max_bits) * v.max_bits) %
        2 ^ (v.max_bits - i * v.bits % v.max_bits) <
        2 ^ (v.max_bits - i * v.bits % v.max_bits) := Nat.mod_lt _ (by positivity)
    have hshlt : (beVal v.max_bits v.inner /
        2 ^ ((v.inner.length - 1 - i * v.bits / v.max_bits) * v.max_bits) %
        2 ^ (v.max_bits - i * v.bits % v.max_bits)) *
        2 ^ (v.bits - (v.max_bits - i * v.bits % v.max_bits)) < 2 ^ v.bits := by
      have h2 : 2 ^ v.bits = 2 ^ (v.max_bits - i * v.bits % v.max_bits) *
          2 ^ (v.bits - (v.max_bits - i * v.bits % v.max_bits)) := by
        rw [← pow_add]
        congr 1
        omega
      rw [h2]
      exact mul_lt_mul_of_pos_right hvlt (by positivity)
    have hw2lt : v.inner.getD (i * v.bits / v.max_bits + 1) 0 /
        2 ^ (v.max_bits - (v.bits - (v.max_bits - i * v.bits % v.max_bits))) <
        2 ^ (v.bits - (v.max_bits - i * v.bits % v.max_bits)) := by
      rw [Nat.div_lt_iff_lt_mul (by positivity), ← pow_add]
      have h7 : v.max_bits - (v.bits - (v.max_bits - i * v.bits % v.max_bits)) +
          (v.bits - (v.max_bits - i * v.bits % v.max_bits)) = v.max_bits := by
        omega
      calc v.inner.getD (i * v.bits / v.max_bits + 1) 0 < 2 ^ v.max_bits := by
            rw [hword2]
            exact Nat.mod_lt _ (by positivity)
        _ = 2 ^ (v.bits - (v.max_bits - i * v.bits % v.max_bits) +
            (v.max_bits - (v.bits - (v.max_bits - i * v.bits % v.max_bits)))) := by
            congr 1
            omega
    rw [hval_eq, Nat.shiftLeft_eq, Nat.mod_eq_of_lt
      (lt_of_lt_of_le hshlt (Nat.pow_le_pow_right (by norm_num) (by omega))),
      Nat.shiftRight_eq_div_pow,
      lor_eq_add (dvd_mul_left _ _) hw2lt]
    -- rewrite the second word's contribution as a stream slice
    rw [hword2, mod_pow_div_sub _ _ _ (by omega), Nat.div_div_eq_div_mul, ← pow_add]
    have he2 : (v.inner.length - 1 - (i * v.bits / v.max_bits + 1)) * v.max_bits +
        (v.max_bits - (v.bits - (v.max_bits - i * v.bits % v.max_bits))) =
        v.inner.length * v.max_bits - (i + 1) * v.bits := by
      omega
    have he1 : (v.inner.length - 1 - i * v.bits / v.max_bits) * v.max_bits =
        v.inner.length * v.max_bits - (i + 1) * v.bits +
          (v.bits - (v.max_bits - i * v.bits % v.max_bits)) := by
      omega
    rw [he2, he1]
    -- now both pieces are slices of S / 2 ^ E; recombine them
    rw [← hstream]
    have hsplit := mod_split (beVal v.max_bits v.inner /
        2 ^ (v.inner.length * v.max_bits - (i + 1) * v.bits))
      (v.max_bits - i * v.bits % v.max_bits)
      (v.bits - (v.max_bits - i * v.bits % v.max_bits))
    have hb2 : (v.bits - (v.max_bits - i * v.bits % v.max_bits)) +
        (v.max_bits - i * v.bits % v.max_bits) = v.bits := by
      omega
    rw [hb2] at hsplit
    rw [hsplit, Nat.div_div_eq_div_mul, ← pow_add]

theorem getD_set_ne (l : List Nat) (i j a : Nat) (h : i ≠ j) :
    (l.set i a).getD j 0 = l.getD j 0 := by
  induction l generalizing i j with
  | nil => simp
  | cons y ys ih =>
    match i, j with
    | 0, 0 => omega
    | 0, j + 1 => rfl
    | i + 1, 0 => rfl
    | i + 1, j + 1 => exact ih i j (by omega)

theorem mod_pow_div_mod (x a c d : Nat) (h : c + d ≤ a) :
    x % 2 ^ a / 2 ^ c % 2 ^ d = x / 2 ^ c % 2 ^ d := by
  obtain ⟨e, rfl⟩ : ∃ e, a = c + e := ⟨a - c, by omega⟩
  rw [pow_mod_div, Nat.mod_mod_of_dvd _ (pow_dvd_pow 2 (by omega))]

/-- `set` on a well-formed vector with an in-range index and value succeeds,
updates exactly the selected element of the decoded sequence, and leaves all
bookkeeping fields and the storage length unchanged. -/
theorem set_models {v : BitsVec} {vals : List Nat} {i x : Nat}
    (hM : Models v vals) (hi : i < v.units) (hx : x < 2 ^ v.bits) :
    ∃ v', v.set i x = some v' ∧ Models v' (vals.set i x) ∧
      v'.bits = v.bits ∧ v'.max_bits = v.max_bits ∧ v'.units = v.units ∧
      v'.leftover = v.leftover ∧ v'.inner.length = v.inner.length := by
  have hidx := get_idx_lt hM hi
  have hstream := stream_elem hM hi
  have hM' := hM
  obtain ⟨hb, hu, hv, hne, hw, hl, hsh, hfull, hval⟩ := hM
  have hn : i < vals.length := by omega
  have hL : 0 < v.inner.length := List.length_pos.mpr hne
  have hW : 0 < v.max_bits := by omega
  have hofflt : i * v.bits % v.max_bits < v.max_bits := Nat.mod_lt _ hW
  have hdm : v.max_bits * (i * v.bits / v.max_bits) + i * v.bits % v.max_bits
      = i * v.bits := Nat.div_add_mod _ _
  have hcm : (i * v.bits / v.max_bits) * v.max_bits =
      v.max_bits * (i * v.bits / v.max_bits) := by ring
  have hword := beVal_getD v.max_bits v.inner hw _ hidx
  have hv0lt : v.inner.getD (i * v.bits / v.max_bits) 0 < 2 ^ v.max_bits := by
    rw [hword]
    exact Nat.mod_lt _ (by positivity)
  have hsplitL : (v.inner.length - 1 - i * v.bits / v.max_bits) * v.max_bits +
      (i * v.bits / v.max_bits) * v.max_bits + v.max_bits =
      v.inner.length * v.max_bits := by
    have h6 : (v.inner.length - 1 - i * v.bits / v.max_bits) +
        (i * v.bits / v.max_bits) + 1 = v.inner.length := by omega
    calc (v.inner.length - 1 - i * v.bits / v.max_bits) * v.max_bits +
        (i * v.bits / v.max_bits) * v.max_bits + v.max_bits =
        ((v.inner.length - 1 - i * v.bits / v.max_bits) +
          (i * v.bits / v.max_bits) + 1) * v.max_bits := by ring
      _ = v.inner.length * v.max_bits := by rw [h6]
  have hib1 : (i + 1) * v.bits = i * v.bits + v.bits := by ring
  have hbnd := mul_add_bound (b := v.bits) hi
  -- the ideal update expressed on the packed element list
  have hvadd := beVal_set v.bits x vals i hn
  have hEe : (vals.length - 1 - i) * v.bits + v.leftover =
      v.inner.length * v.max_bits - (i + 1) * v.bits := by
    have hsplitn : vals.length * v.bits =
        (i + 1) * v.bits + (vals.length - 1 - i) * v.bits := by
      have h6 : (i + 1) + (vals.length - 1 - i) = vals.length := by omega
      calc vals.length * v.bits = ((i + 1) + (vals.length - 1 - i)) * v.bits := by
            rw [h6]
        _ = (i + 1) * v.bits + (vals.length - 1 - i) * v.bits := by ring
    have hshl : v.inner.length * v.max_bits = vals.length * v.bits + v.leftover := by
      rw [← hu]
      exact hsh
    omega
  have ha9 : beVal v.bits (vals.set i x) * 2 ^ v.leftover +
      vals.getD i 0 * 2 ^ (v.inner.length * v.max_bits - (i + 1) * v.bits) =
      beVal v.bits vals * 2 ^ v.leftover +
      x * 2 ^ (v.inner.length * v.max_bits - (i + 1) * v.bits) := by
    have h7 := congrArg (fun t => t * 2 ^ v.leftover) hvadd
    simp only at h7
    rw [add_mul, add_mul, mul_assoc, mul_assoc, ← pow_add, hEe] at h7
    exact h7
  unfold BitsVec.set
  rw [if_pos hi, if_pos (shiftRight_eq_zero_iff.mpr hx)]
  dsimp only
  by_cases hcase : v.max_bits - i * v.bits % v.max_bits ≥ v.bits
  · -- the element lies entirely within one word
    rw [if_pos hcase]
    have hmask_eq : (v.inner.getD (i * v.bits / v.max_bits) 0 &&&
        (if i * v.bits % v.max_bits = 0 then 0
          else (1 <<< (i * v.bits % v.max_bits) - 1) <<<
            (v.max_bits - i * v.bits % v.max_bits))) =
        v.inner.getD (i * v.bits / v.max_bits) 0 /
          2 ^ (v.max_bits - i * v.bits % v.max_bits) *
          2 ^ (v.max_bits - i * v.bits % v.max_bits) := by
      by_cases hoff : i * v.bits % v.max_bits = 0
      · rw [if_pos hoff, Nat.and_zero, hoff, Nat.sub_zero,
          Nat.div_eq_of_lt hv0lt, Nat.zero_mul]
      · rw [if_neg hoff, Nat.one_shiftLeft, and_shiftLeft_mask]
        have hq : v.inner.getD (i * v.bits / v.max_bits) 0 /
            2 ^ (v.max_bits - i * v.bits % v.max_bits) <
            2 ^ (i * v.bits % v.max_bits) := by
          rw [Nat.div_lt_iff_lt_mul (by positivity), ← pow_add]
          calc v.inner.getD (i * v.bits / v.max_bits) 0 < 2 ^ v.max_bits := hv0lt
            _ = 2 ^ (i * v.bits % v.max_bits +
                (v.max_bits - i * v.bits % v.max_bits)) := by congr 1; omega
        rw [Nat.mod_eq_of_lt hq]
    have hxslt : x * 2 ^ (v.max_bits - i * v.bits % v.max_bits - v.bits) <
        2 ^ (v.max_bits - i * v.bits % v.max_bits) := by
      have h2 : 2 ^ (v.max_bits - i * v.bits % v.max_bits) =
          2 ^ v.bits * 2 ^ (v.max_bits - i * v.bits % v.max_bits - v.bits) := by
        rw [← pow_add]
        congr 1
        omega
      rw [h2]
      exact mul_lt_mul_of_pos_right hx (by positivity)
    have hdvd2 : 2 ^ (v.max_bits - i * v.bits % v.max_bits - v.bits) ∣
        (v.inner.getD (i * v.bits / v.max_bits) 0 /
          2 ^ (v.max_bits - i * v.bits % v.max_bits) *
          2 ^ (v.max_bits - i * v.bits % v.max_bits) +
         x * 2 ^ (v.max_bits - i * v.bits % v.max_bits - v.bits)) :=
      dvd_add (dvd_trans (pow_dvd_pow 2 (Nat.sub_le _ _)) (dvd_mul_left _ _))
        (dvd_mul_left _ _)
    have hlast_lt : v.inner.getD (i * v.bits / v.max_bits) 0 %
        2 ^ (v.max_bits - i * v.bits % v.max_bits - v.bits) <
        2 ^ (v.max_bits - i * v.bits % v.max_bits - v.bits) :=
      Nat.mod_lt _ (by positivity)
    rw [hmask_eq, Nat.one_shiftLeft, Nat.and_pow_two_sub_one_eq_mod,
      Nat.shiftLeft_eq, Nat.mod_eq_of_lt
        (lt_of_lt_of_le hxslt (Nat.pow_le_pow_right (by norm_num) (by omega))),
      lor_eq_add (dvd_mul_left _ _) hxslt,
      lor_eq_add hdvd2 hlast_lt]
    refine ⟨_, rfl, ?_, rfl, rfl, rfl, rfl, by simp⟩
    -- the bits being replaced are exactly the packed element
    have hmid : v.inner.getD (i * v.bits / v.max_bits) 0 /
        2 ^ (v.max_bits - i * v.bits % v.max_bits - v.bits) % 2 ^ v.bits =
        vals.getD i 0 := by
      rw [hword, mod_pow_div_mod _ _ _ _ (by omega), Nat.div_div_eq_div_mul,
        ← pow_add]
      have heE : (v.inner.length - 1 - i * v.bits / v.max_bits) * v.max_bits +
          (v.max_bits - i * v.bits % v.max_bits - v.bits) =
          v.inner.length * v.max_bits - (i + 1) * v.bits := by
        omega
      rw [heE]
      exact hstream
    -- word-level swap identity
    have hsb : (v.max_bits - i * v.bits % v.max_bits - v.bits) + v.bits =
        v.max_bits - i * v.bits % v.max_bits := by omega
    have d2 := mod_split (v.inner.getD (i * v.bits / v.max_bits) 0) v.bits
      (v.max_bits - i * v.bits % v.max_bits - v.bits)
    rw [hsb, hmid] at d2
    have d1 : 2 ^ (v.max_bits - i * v.bits % v.max_bits) *
        (v.inner.getD (i * v.bits / v.max_bits) 0 /
          2 ^ (v.max_bits - i * v.bits % v.max_bits)) +
        v.inner.getD (i * v.bits / v.max_bits) 0 %
          2 ^ (v.max_bits - i * v.bits % v.max_bits) =
        v.inner.getD (i * v.bits / v.max_bits) 0 := Nat.div_add_mod _ _
    have br1 : 2 ^ (v.max_bits - i * v.bits % v.max_bits) *
        (v.inner.getD (i * v.bits / v.max_bits) 0 /
          2 ^ (v.max_bits - i * v.bits % v.max_bits)) =
        v.inner.getD (i * v.bits / v.max_bits) 0 /
          2 ^ (v.max_bits - i * v.bits % v.max_bits) *
          2 ^ (v.max_bits - i * v.bits % v.max_bits) := by ring
    have hword_eq : v.inner.getD (i * v.bits / v.max_bits) 0 /
          2 ^ (v.max_bits - i * v.bits % v.max_bits) *
          2 ^ (v.max_bits - i * v.bits % v.max_bits) +
        x * 2 ^ (v.max_bits - i * v.bits % v.max_bits - v.bits) +
        v.inner.getD (i * v.bits / v.max_bits) 0 %
          2 ^ (v.max_bits - i * v.bits % v.max_bits - v.bits) +
        vals.getD i 0 * 2 ^ (v.max_bits - i * v.bits % v.max_bits - v.bits) =
        v.inner.getD (i * v.bits / v.max_bits) 0 +
        x * 2 ^ (v.max_bits - i * v.bits % v.max_bits - v.bits) := by
      omega
    -- bound on the updated word
    have hA : v.inner.getD (i * v.bits / v.max_bits) 0 /
        2 ^ (v.max_bits - i * v.bits % v.max_bits) <
        2 ^ (i * v.bits % v.max_bits) := by
      rw [Nat.div_lt_iff_lt_mul (by positivity), ← pow_add]
      calc v.inner.getD (i * v.bits / v.max_bits) 0 < 2 ^ v.max_bits := hv0lt
        _ = 2 ^ (i * v.bits % v.max_bits +
            (v.max_bits - i * v.bits % v.max_bits)) := by congr 1; omega
    have hnwlt : v.inner.getD (i * v.bits / v.max_bits) 0 /
          2 ^ (v.max_bits - i * v.bits % v.max_bits) *
          2 ^ (v.max_bits - i * v.bits % v.max_bits) +
        x * 2 ^ (v.max_bits - i * v.bits % v.max_bits - v.bits) +
        v.inner.getD (i * v.bits / v.max_bits) 0 %
          2 ^ (v.max_bits - i * v.bits % v.max_bits - v.bits) < 2 ^ v.max_bits := by
      have g1 : (v.inner.getD (i * v.bits / v.max_bits) 0 /
          2 ^ (v.max_bits - i * v.bits % v.max_bits) + 1) *
          2 ^ (v.max_bits - i * v.bits % v.max_bits) ≤
          2 ^ (i * v.bits % v.max_bits) *
          2 ^ (v.max_bits - i * v.bits % v.max_bits) :=
        Nat.mul_le_mul_right _ (by omega)
      have g2 : 2 ^ (i * v.bits % v.max_bits) *
          2 ^ (v.max_bits - i * v.bits % v.max_bits) = 2 ^ v.max_bits := by
        rw [← pow_add]
        congr 1
        omega
      have g3 : (v.inner.getD (i * v.bits / v.max_bits) 0 /
          2 ^ (v.max_bits - i * v.bits % v.max_bits) + 1) *
          2 ^ (v.max_bits - i * v.bits % v.max_bits) =
          v.inner.getD (i * v.bits / v.max_bits) 0 /
            2 ^ (v.max_bits - i * v.bits % v.max_bits) *
            2 ^ (v.max_bits - i * v.bits % v.max_bits) +
          2 ^ (v.max_bits - i * v.bits % v.max_bits) := by ring
      have g4 : (x + 1) * 2 ^ (v.max_bits - i * v.bits % v.max_bits - v.bits) ≤
          2 ^ v.bits * 2 ^ (v.max_bits - i * v.bits % v.max_bits - v.bits) :=
        Nat.mul_le_mul_right _ (by omega)
      have g5 : 2 ^ v.bits * 2 ^ (v.max_bits - i * v.bits % v.max_bits - v.bits) =
          2 ^ (v.max_bits - i * v.bits % v.max_bits) := by
        rw [← pow_add]
        congr 1
        omega
      have g6 : (x + 1) * 2 ^ (v.max_bits - i * v.bits % v.max_bits - v.bits) =
          x * 2 ^ (v.max_bits - i * v.bits % v.max_bits - v.bits) +
          2 ^ (v.max_bits - i * v.bits % v.max_bits - v.bits) := by ring
      omega
    -- lift the word identity through the valuation
    have hsetw := beVal_set v.max_bits
      (v.inner.getD (i * v.bits / v.max_bits) 0 /
          2 ^ (v.max_bits - i * v.bits % v.max_bits) *
          2 ^ (v.max_bits - i * v.bits % v.max_bits) +
        x * 2 ^ (v.max_bits - i * v.bits % v.max_bits - v.bits) +
        v.inner.getD (i * v.bits / v.max_bits) 0 %
          2 ^ (v.max_bits - i * v.bits % v.max_bits - v.bits))
      v.inner (i * v.bits / v.max_bits) hidx
    rw [add_mul, add_mul, mul_assoc x, ← pow_add] at hsetw
    have hlift := congrArg
      (fun t => t * 2 ^ ((v.inner.length - 1 - i * v.bits / v.max_bits) * v.max_bits))
      hword_eq
    simp only at hlift
    rw [add_mul, add_mul, add_mul, add_mul, mul_assoc (vals.getD i 0), ← pow_add,
      mul_assoc x, ← pow_add] at hlift
    have heE2 : (v.max_bits - i * v.bits % v.max_bits - v.bits) +
        (v.inner.length - 1 - i * v.bits / v.max_bits) * v.max_bits =
        v.inner.length * v.max_bits - (i + 1) * v.bits := by
      omega
    rw [heE2] at hlift hsetw
    unfold Models
    dsimp only
    refine ⟨hb, by simp [hu], ?_, ?_, ?_, hl, ?_, ?_, ?_⟩
    · intro y hy
      rcases List.mem_or_eq_of_mem_set hy with h | h
      · exact hv y h
      · rw [h]
        exact hx
    · simp only [ne_eq, List.set_eq_nil_iff]
      exact hne
    · intro y hy
      rcases List.mem_or_eq_of_mem_set hy with h | h
      · exact hw y h
      · rw [h]
        exact hnwlt
    · simp only [List.length_set]
      exact hsh
    · exact hfull
    · omega
  · -- the element spans two adjacent words
    rw [if_neg hcase]
    have hspan : v.max_bits - i * v.bits % v.max_bits < v.bits := by omega
    have hoffpos : 0 < i * v.bits % v.max_bits := by omega
    have hidx2 := get_idx_succ_lt hM' hi hspan
    have hword2 := beVal_getD v.max_bits v.inner hw _ hidx2
    have hw2lt : v.inner.getD (i * v.bits / v.max_bits + 1) 0 < 2 ^ v.max_bits := by
      rw [hword2]
      exact Nat.mod_lt _ (by positivity)
    have hsplitL2 : (v.inner.length - 1 - (i * v.bits / v.max_bits + 1)) * v.max_bits +
        (i * v.bits / v.max_bits) * v.max_bits + v.max_bits + v.max_bits =
        v.inner.length * v.max_bits := by
      have h6 : (v.inner.length - 1 - (i * v.bits / v.max_bits + 1)) +
          (i * v.bits / v.max_bits) + 2 = v.inner.length := by omega
      calc (v.inner.length - 1 - (i * v.bits / v.max_bits + 1)) * v.max_bits +
          (i * v.bits / v.max_bits) * v.max_bits + v.max_bits + v.max_bits =
          ((v.inner.length - 1 - (i * v.bits / v.max_bits + 1)) +
            (i * v.bits / v.max_bits) + 2) * v.max_bits := by ring
        _ = v.inner.length * v.max_bits := by rw [h6]
    -- arithmetic forms of the two updated words
    have hxq : x / 2 ^ (v.bits - (v.max_bits - i * v.bits % v.max_bits)) <
        2 ^ (v.max_bits - i * v.bits % v.max_bits) := by
      rw [Nat.div_lt_iff_lt_mul (by positivity), ← pow_add]
      calc x < 2 ^ v.bits := hx
        _ = 2 ^ (v.max_bits - i * v.bits % v.max_bits +
            (v.bits - (v.max_bits - i * v.bits % v.max_bits))) := by congr 1; omega
    have hxrlt : x % 2 ^ (v.bits - (v.max_bits - i * v.bits % v.max_bits)) *
        2 ^ (v.max_bits - (v.bits - (v.max_bits - i * v.bits % v.max_bits))) <
        2 ^ v.max_bits := by
      have h1 : x % 2 ^ (v.bits - (v.max_bits - i * v.bits % v.max_bits)) <
          2 ^ (v.bits - (v.max_bits - i * v.bits % v.max_bits)) :=
        Nat.mod_lt _ (by positivity)
      have h2 : 2 ^ v.max_bits =
          2 ^ (v.bits - (v.max_bits - i * v.bits % v.max_bits)) *
          2 ^ (v.max_bits - (v.bits - (v.max_bits - i * v.bits % v.max_bits))) := by
        rw [← pow_add]
        congr 1
        omega
      rw [h2]
      exact mul_lt_mul_of_pos_right h1 (by positivity)
    have hw2mod : v.inner.getD (i * v.bits / v.max_bits + 1) 0 %
        2 ^ (v.max_bits - (v.bits - (v.max_bits - i * v.bits % v.max_bits))) <
        2 ^ (v.max_bits - (v.bits - (v.max_bits - i * v.bits % v.max_bits))) :=
      Nat.mod_lt _ (by positivity)
    simp only [Nat.shiftRight_eq_div_pow, Nat.shiftLeft_eq, one_mul,
      Nat.and_pow_two_sub_one_eq_mod]
    rw [Nat.mod_eq_of_lt hxrlt,
      lor_eq_add (dvd_mul_left _ _) hxq,
      Nat.lor_comm, lor_eq_add (dvd_mul_left _ _) hw2mod]
    refine ⟨_, rfl, ?_, rfl, rfl, rfl, rfl, by simp⟩
    -- the packed element splits into the low `diff` bits of the first word
    -- and the top `shift` bits of the second
    have hhi : v.inner.getD (i * v.bits / v.max_bits) 0 %
        2 ^ (v.max_bits - i * v.bits % v.max_bits) =
        beVal v.max_bits v.inner /
          2 ^ ((v.inner.length - 1 - i * v.bits / v.max_bits) * v.max_bits) %
          2 ^ (v.max_bits - i * v.bits % v.max_bits) := by
      rw [hword, Nat.mod_mod_of_dvd _ (pow_dvd_pow 2 (by omega))]
    have hshE : (v.inner.length * v.max_bits - (i + 1) * v.bits) +
        (v.bits - (v.max_bits - i * v.bits % v.max_bits)) =
        (v.inner.length - 1 - i * v.bits / v.max_bits) * v.max_bits := by
      omega
    have hlo : v.inner.getD (i * v.bits / v.max_bits + 1) 0 /
        2 ^ (v.max_bits - (v.bits - (v.max_bits - i * v.bits % v.max_bits))) =
        beVal v.max_bits v.inner /
          2 ^ (v.inner.length * v.max_bits - (i + 1) * v.bits) %
          2 ^ (v.bits - (v.max_bits - i * v.bits % v.max_bits)) := by
      rw [hword2, mod_pow_div_sub _ _ _ (by omega), Nat.div_div_eq_div_mul, ← pow_add]
      have hE4 : (v.inner.length - 1 - (i * v.bits / v.max_bits + 1)) * v.max_bits +
          (v.max_bits - (v.bits - (v.max_bits - i * v.bits % v.max_bits))) =
          v.inner.length * v.max_bits - (i + 1) * v.bits := by
        omega
      rw [hE4]
    have hg : vals.getD i 0 =
        v.inner.getD (i * v.bits / v.max_bits) 0 %
          2 ^ (v.max_bits - i * v.bits % v.max_bits) *
          2 ^ (v.bits - (v.max_bits - i * v.bits % v.max_bits)) +
        v.inner.getD (i * v.bits / v.max_bits + 1) 0 /
          2 ^ (v.max_bits - (v.bits - (v.max_bits - i * v.bits % v.max_bits))) := by
      rw [← hstream]
      have hsplit := mod_split (beVal v.max_bits v.inner /
          2 ^ (v.inner.length * v.max_bits - (i + 1) * v.bits))
        (v.max_bits - i * v.bits % v.max_bits)
        (v.bits - (v.max_bits - i * v.bits % v.max_bits))
      have hb2 : (v.bits - (v.max_bits - i * v.bits % v.max_bits)) +
          (v.max_bits - i * v.bits % v.max_bits) = v.bits := by omega
      rw [hb2] at hsplit
      rw [hsplit, Nat.div_div_eq_div_mul, ← pow_add, hshE, ← hhi, ← hlo]
    -- word-level swap identities
    have d1 : 2 ^ (v.max_bits - i * v.bits % v.max_bits) *
        (v.inner.getD (i * v.bits / v.max_bits) 0 /
          2 ^ (v.max_bits - i * v.bits % v.max_bits)) +
        v.inner.getD (i * v.bits / v.max_bits) 0 %
          2 ^ (v.max_bits - i * v.bits % v.max_bits) =
        v.inner.getD (i * v.bits / v.max_bits) 0 := Nat.div_add_mod _ _
    have br1 : 2 ^ (v.max_bits - i * v.bits % v.max_bits) *
        (v.inner.getD (i * v.bits / v.max_bits) 0 /
          2 ^ (v.max_bits - i * v.bits % v.max_bits)) =
        v.inner.getD (i * v.bits / v.max_bits) 0 /
          2 ^ (v.max_bits - i * v.bits % v.max_bits) *
          2 ^ (v.max_bits - i * v.bits % v.max_bits) := by ring
    have d2 : 2 ^ (v.max_bits - (v.bits - (v.max_bits - i * v.bits % v.max_bits))) *
        (v.inner.getD (i * v.bits / v.max_bits + 1) 0 /
          2 ^ (v.max_bits - (v.bits - (v.max_bits - i * v.bits % v.max_bits)))) +
        v.inner.getD (i * v.bits / v.max_bits + 1) 0 %
          2 ^ (v.max_bits - (v.bits - (v.max_bits - i * v.bits % v.max_bits))) =
        v.inner.getD (i * v.bits / v.max_bits + 1) 0 := Nat.div_add_mod _ _
    have br2 : 2 ^ (v.max_bits - (v.bits - (v.max_bits - i * v.bits % v.max_bits))) *
        (v.inner.getD (i * v.bits / v.max_bits + 1) 0 /
          2 ^ (v.max_bits - (v.bits - (v.max_bits - i * v.bits % v.max_bits)))) =
        v.inner.getD (i * v.bits / v.max_bits + 1) 0 /
          2 ^ (v.max_bits - (v.bits - (v.max_bits - i * v.bits % v.max_bits))) *
          2 ^ (v.max_bits - (v.bits - (v.max_bits - i * v.bits % v.max_bits))) := by ring
    -- bounds on the two updated words
    have hA : v.inner.getD (i * v.bits / v.max_bits) 0 /
        2 ^ (v.max_bits - i * v.bits % v.max_bits) <
        2 ^ (i * v.bits % v.max_bits) := by
      rw [Nat.div_lt_iff_lt_mul (by positivity), ← pow_add]
      calc v.inner.getD (i * v.bits / v.max_bits) 0 < 2 ^ v.max_bits := hv0lt
        _ = 2 ^ (i * v.bits % v.max_bits +
            (v.max_bits - i * v.bits % v.max_bits)) := by congr 1; omega
    have hw1lt : v.inner.getD (i * v.bits / v.max_bits) 0 /
          2 ^ (v.max_bits - i * v.bits % v.max_bits) *
          2 ^ (v.max_bits - i * v.bits % v.max_bits) +
        x / 2 ^ (v.bits - (v.max_bits - i * v.bits % v.max_bits)) <
        2 ^ v.max_bits := by
      have g1 : (v.inner.getD (i * v.bits / v.max_bits) 0 /
          2 ^ (v.max_bits - i * v.bits % v.max_bits) + 1) *
          2 ^ (v.max_bits - i * v.bits % v.max_bits) ≤
          2 ^ (i * v.bits % v.max_bits) *
          2 ^ (v.max_bits - i * v.bits % v.max_bits) :=
        Nat.mul_le_mul_right _ (by omega)
      have g2 : 2 ^ (i * v.bits % v.max_bits) *
          2 ^ (v.max_bits - i * v.bits % v.max_bits) = 2 ^ v.max_bits := by
        rw [← pow_add]
        congr 1
        omega
      have g3 : (v.inner.getD (i * v.bits / v.max_bits) 0 /
          2 ^ (v.max_bits - i * v.bits % v.max_bits) + 1) *
          2 ^ (v.max_bits - i * v.bits % v.max_bits) =
          v.inner.getD (i * v.bits / v.max_bits) 0 /
            2 ^ (v.max_bits - i * v.bits % v.max_bits) *
            2 ^ (v.max_bits - i * v.bits % v.max_bits) +
          2 ^ (v.max_bits - i * v.bits % v.max_bits) := by ring
      omega
    have hw2lt' : x % 2 ^ (v.bits - (v.max_bits - i * v.bits % v.max_bits)) *
          2 ^ (v.max_bits - (v.bits - (v.max_bits - i * v.bits % v.max_bits))) +
        v.inner.getD (i * v.bits / v.max_bits + 1) 0 %
          2 ^ (v.max_bits - (v.bits - (v.max_bits - i * v.bits % v.max_bits))) <
        2 ^ v.max_bits := by
      have g1 : (x % 2 ^ (v.bits - (v.max_bits - i * v.bits % v.max_bits)) + 1) *
          2 ^ (v.max_bits - (v.bits - (v.max_bits - i * v.bits % v.max_bits))) ≤
          2 ^ (v.bits - (v.max_bits - i * v.bits % v.max_bits)) *
          2 ^ (v.max_bits - (v.bits - (v.max_bits - i * v.bits % v.max_bits))) :=
        Nat.mul_le_mul_right _ (Nat.mod_lt _ (by positivity))
      have g2 : 2 ^ (v.bits - (v.max_bits - i * v.bits % v.max_bits)) *
          2 ^ (v.max_bits - (v.bits - (v.max_bits - i * v.bits % v.max_bits))) =
          2 ^ v.max_bits := by
        rw [← pow_add]
        congr 1
        omega
      have g3 : (x % 2 ^ (v.bits - (v.max_bits - i * v.bits % v.max_bits)) + 1) *
          2 ^ (v.max_bits - (v.bits - (v.max_bits - i * v.bits % v.max_bits))) =
          x % 2 ^ (v.bits - (v.max_bits - i * v.bits % v.max_bits)) *
            2 ^ (v.max_bits - (v.bits - (v.max_bits - i * v.bits % v.max_bits))) +
          2 ^ (v.max_bits - (v.bits - (v.max_bits - i * v.bits % v.max_bits))) := by ring
      omega
    -- lift through the valuation: first word, then second word
    have hset1 := beVal_set v.max_bits
      (v.inner.getD (i * v.bits / v.max_bits) 0 /
          2 ^ (v.max_bits - i * v.bits % v.max_bits) *
          2 ^ (v.max_bits - i * v.bits % v.max_bits) +
        x / 2 ^ (v.bits - (v.max_bits - i * v.bits % v.max_bits)))
      v.inner (i * v.bits / v.max_bits) hidx
    have hlen1 : (v.inner.set (i * v.bits / v.max_bits)
        (v.inner.getD (i * v.bits / v.max_bits) 0 /
            2 ^ (v.max_bits - i * v.bits % v.max_bits) *
            2 ^ (v.max_bits - i * v.bits % v.max_bits) +
          x / 2 ^ (v.bits - (v.max_bits - i * v.bits % v.max_bits)))).length =
        v.inner.length := List.length_set _ _ _
    have hset2 := beVal_set v.max_bits
      (x % 2 ^ (v.bits - (v.max_bits - i * v.bits % v.max_bits)) *
          2 ^ (v.max_bits - (v.bits - (v.max_bits - i * v.bits % v.max_bits))) +
        v.inner.getD (i * v.bits / v.max_bits + 1) 0 %
          2 ^ (v.max_bits - (v.bits - (v.max_bits - i * v.bits % v.max_bits))))
      (v.inner.set (i * v.bits / v.max_bits)
        (v.inner.getD (i * v.bits / v.max_bits) 0 /
            2 ^ (v.max_bits - i * v.bits % v.max_bits) *
            2 ^ (v.max_bits - i * v.bits % v.max_bits) +
          x / 2 ^ (v.bits - (v.max_bits - i * v.bits % v.max_bits))))
      (i * v.bits / v.max_bits + 1) (by rw [hlen1]; exact hidx2)
    rw [hlen1, getD_set_ne _ _ _ _ (by omega)] at hset2
    rw [add_mul] at hset1 hset2
    -- merge the shifted products into slices at the element's exponent
    have hE5 : (v.max_bits - (v.bits - (v.max_bits - i * v.bits % v.max_bits))) +
        (v.inner.length - 1 - (i * v.bits / v.max_bits + 1)) * v.max_bits =
        v.inner.length * v.max_bits - (i + 1) * v.bits := by
      omega
    have hE6 : (v.bits - (v.max_bits - i * v.bits % v.max_bits)) +
        (v.inner.length * v.max_bits - (i + 1) * v.bits) =
        (v.inner.length - 1 - i * v.bits / v.max_bits) * v.max_bits := by
      omega
    have brx : x % 2 ^ (v.bits - (v.max_bits - i * v.bits % v.max_bits)) *
        2 ^ (v.max_bits - (v.bits - (v.max_bits - i * v.bits % v.max_bits))) *
        2 ^ ((v.inner.length - 1 - (i * v.bits / v.max_bits + 1)) * v.max_bits) =
        x % 2 ^ (v.bits - (v.max_bits - i * v.bits % v.max_bits)) *
        2 ^ (v.inner.length * v.max_bits - (i + 1) * v.bits) := by
      rw [mul_assoc, ← pow_add, hE5]
    rw [brx] at hset2
    have hm1 : (v.inner.getD (i * v.bits / v.max_bits) 0 /
          2 ^ (v.max_bits - i * v.bits % v.max_bits) *
          2 ^ (v.max_bits - i * v.bits % v.max_bits) +
        v.inner.getD (i * v.bits / v.max_bits) 0 %
          2 ^ (v.max_bits - i * v.bits % v.max_bits)) *
        2 ^ ((v.inner.length - 1 - i * v.bits / v.max_bits) * v.max_bits) =
        v.inner.getD (i * v.bits / v.max_bits) 0 *
        2 ^ ((v.inner.length - 1 - i * v.bits / v.max_bits) * v.max_bits) := by
      have : v.inner.getD (i * v.bits / v.max_bits) 0 /
          2 ^ (v.max_bits - i * v.bits % v.max_bits) *
          2 ^ (v.max_bits - i * v.bits % v.max_bits) +
          v.inner.getD (i * v.bits / v.max_bits) 0 %
            2 ^ (v.max_bits - i * v.bits % v.max_bits) =
          v.inner.getD (i * v.bits / v.max_bits) 0 := by omega
      rw [this]
    rw [add_mul] at hm1
    have hm2 : (v.inner.getD (i * v.bits / v.max_bits + 1) 0 /
          2 ^ (v.max_bits - (v.bits - (v.max_bits - i * v.bits % v.max_bits))) *
          2 ^ (v.max_bits - (v.bits - (v.max_bits - i * v.bits % v.max_bits))) +
        v.inner.getD (i * v.bits / v.max_bits + 1) 0 %
          2 ^ (v.max_bits - (v.bits - (v.max_bits - i * v.bits % v.max_bits)))) *
        2 ^ ((v.inner.length - 1 - (i * v.bits / v.max_bits + 1)) * v.max_bits) =
        v.inner.getD (i * v.bits / v.max_bits + 1) 0 *
        2 ^ ((v.inner.length - 1 - (i * v.bits / v.max_bits + 1)) * v.max_bits) := by
      have : v.inner.getD (i * v.bits / v.max_bits + 1) 0 /
          2 ^ (v.max_bits - (v.bits - (v.max_bits - i * v.bits % v.max_bits))) *
          2 ^ (v.max_bits - (v.bits - (v.max_bits - i * v.bits % v.max_bits))) +
          v.inner.getD (i * v.bits / v.max_bits + 1) 0 %
            2 ^ (v.max_bits - (v.bits - (v.max_bits - i * v.bits % v.max_bits))) =
          v.inner.getD (i * v.bits / v.max_bits + 1) 0 := by omega
      rw [this]
    rw [add_mul] at hm2
    have brlo : v.inner.getD (i * v.bits / v.max_bits + 1) 0 /
        2 ^ (v.max_bits - (v.bits - (v.max_bits - i * v.bits % v.max_bits))) *
        2 ^ (v.max_bits - (v.bits - (v.max_bits - i * v.bits % v.max_bits))) *
        2 ^ ((v.inner.length - 1 - (i * v.bits / v.max_bits + 1)) * v.max_bits) =
        v.inner.getD (i * v.bits / v.max_bits + 1) 0 /
          2 ^ (v.max_bits - (v.bits - (v.max_bits - i * v.bits % v.max_bits))) *
        2 ^ (v.inner.length * v.max_bits - (i + 1) * v.bits) := by
      rw [mul_assoc, ← pow_add, hE5]
    rw [brlo] at hm2
    have hglift : vals.getD i 0 *
        2 ^ (v.inner.length * v.max_bits - (i + 1) * v.bits) =
        v.inner.getD (i * v.bits / v.max_bits) 0 %
          2 ^ (v.max_bits - i * v.bits % v.max_bits) *
          2 ^ ((v.inner.length - 1 - i * v.bits / v.max_bits) * v.max_bits) +
        v.inner.getD (i * v.bits / v.max_bits + 1) 0 /
          2 ^ (v.max_bits - (v.bits - (v.max_bits - i * v.bits % v.max_bits))) *
          2 ^ (v.inner.length * v.max_bits - (i + 1) * v.bits) := by
      rw [hg]
      have h8 : (v.inner.getD (i * v.bits / v.max_bits) 0 %
            2 ^ (v.max_bits - i * v.bits % v.max_bits) *
            2 ^ (v.bits - (v.max_bits - i * v.bits % v.max_bits)) +
          v.inner.getD (i * v.bits / v.max_bits + 1) 0 /
            2 ^ (v.max_bits - (v.bits - (v.max_bits - i * v.bits % v.max_bits)))) *
          2 ^ (v.inner.length * v.max_bits - (i + 1) * v.bits) =
          v.inner.getD (i * v.bits / v.max_bits) 0 %
            2 ^ (v.max_bits - i * v.bits % v.max_bits) *
            (2 ^ (v.bits - (v.max_bits - i * v.bits % v.max_bits)) *
             2 ^ (v.inner.length * v.max_bits - (i + 1) * v.bits)) +
          v.inner.getD (i * v.bits / v.max_bits + 1) 0 /
            2 ^ (v.max_bits - (v.bits - (v.max_bits - i * v.bits % v.max_bits))) *
            2 ^ (v.inner.length * v.max_bits - (i + 1) * v.bits) := by ring
      rw [h8, ← pow_add, hE6]
    have hxlift : x * 2 ^ (v.inner.length * v.max_bits - (i + 1) * v.bits) =
        x / 2 ^ (v.bits - (v.max_bits - i * v.bits % v.max_bits)) *
          2 ^ ((v.inner.length - 1 - i * v.bits / v.max_bits) * v.max_bits) +
        x % 2 ^ (v.bits - (v.max_bits - i * v.bits % v.max_bits)) *
          2 ^ (v.inner.length * v.max_bits - (i + 1) * v.bits) := by
      have hdm2 : 2 ^ (v.bits - (v.max_bits - i * v.bits % v.max_bits)) *
          (x / 2 ^ (v.bits - (v.max_bits - i * v.bits % v.max_bits))) +
          x % 2 ^ (v.bits - (v.max_bits - i * v.bits % v.max_bits)) = x :=
        Nat.div_add_mod _ _
      calc x * 2 ^ (v.inner.length * v.max_bits - (i + 1) * v.bits) =
          (2 ^ (v.bits - (v.max_bits - i * v.bits % v.max_bits)) *
            (x / 2 ^ (v.bits - (v.max_bits - i * v.bits % v.max_bits))) +
           x % 2 ^ (v.bits - (v.max_bits - i * v.bits % v.max_bits))) *
          2 ^ (v.inner.length * v.max_bits - (i + 1) * v.bits) := by rw [hdm2]
        _ = x / 2 ^ (v.bits - (v.max_bits - i * v.bits % v.max_bits)) *
            (2 ^ (v.bits - (v.max_bits - i * v.bits % v.max_bits)) *
             2 ^ (v.inner.length * v.max_bits - (i + 1) * v.bits)) +
            x % 2 ^ (v.bits - (v.max_bits - i * v.bits % v.max_bits)) *
            2 ^ (v.inner.length * v.max_bits - (i + 1) * v.bits) := by ring
        _ = _ := by rw [← pow_add, hE6]
    unfold Models
    dsimp only
    refine ⟨hb, by simp [hu], ?_, ?_, ?_, hl, ?_, ?_, ?_⟩
    · intro y hy
      rcases List.mem_or_eq_of_mem_set hy with h | h
      · exact hv y h
      · rw [h]
        exact hx
    · simp only [ne_eq, List.set_eq_nil_iff]
      exact hne
    · intro y hy
      rcases List.mem_or_eq_of_mem_set hy with h | h
      · rcases List.mem_or_eq_of_mem_set h with h' | h'
        · exact hw y h'
        · rw [h']
          exact hw1lt
      · rw [h]
        exact hw2lt'
    · simp only [List.length_set]
      exact hsh
    · exact hfull
    · omega

theorem get_models {v : BitsVec} {vals : List Nat} (hM : Models v vals)
    {i : Nat} (hi : i < v.units) :
    v.get i = some (vals.getD i 0) := by
  unfold BitsVec.get
  rw [if_pos hi]
  exact checked_get_models hM hi

/-- Pushing a list of in-range values in order succeeds and appends them to
the decoded sequence. -/
theorem pushAll_models {v : BitsVec} {vals : List Nat} (hM : Models v vals)
    {xs : List Nat} (hxs : ∀ x ∈ xs, x < 2 ^ v.bits) :
    ∃ v', v.pushAll xs = some v' ∧ Models v' (vals ++ xs) ∧
      v'.bits = v.bits ∧ v'.max_bits = v.max_bits := by
  induction xs generalizing v vals with
  | nil => exact ⟨v, rfl, by simpa using hM, rfl, rfl⟩
  | cons x xs ih =>
    obtain ⟨v1, hp, hM1, hb1, hw1, _, _⟩ :=
      push_models hM (hxs x (List.mem_cons_self x xs))
    obtain ⟨v', ha, hM', hb', hw'⟩ := ih hM1
      (fun y hy => hb1 ▸ hxs y (List.mem_cons_of_mem x hy))
    refine ⟨v', ?_, by simpa using hM', by omega, by omega⟩
    show (v.push x).bind (fun u => u.pushAll xs) = some v'
    rw [hp]
    exact ha

theorem pushRepeat_eq_pushAll (v : BitsVec) (x n : Nat) :
    v.pushRepeat x n = v.pushAll (List.replicate n x) := by
  induction n generalizing v with
  | zero => rfl
  | succ n ih =>
    show (v.push x).bind _ = (v.push x).bind _
    cases v.push x with
    | none => rfl
    | some u => exact ih u

theorem pushRepeat_models {v : BitsVec} {vals : List Nat} (hM : Models v vals)
    {x : Nat} (hx : x < 2 ^ v.bits) (n : Nat) :
    ∃ v', v.pushRepeat x n = some v' ∧ Models v' (vals ++ List.replicate n x) ∧
      v'.bits = v.bits ∧ v'.max_bits = v.max_bits := by
  rw [pushRepeat_eq_pushAll]
  exact pushAll_models hM (fun y hy => by
    rw [List.eq_of_mem_replicate hy]
    exact hx)

theorem pushRepeat_add (v : BitsVec) (x m n : Nat) :
    v.pushRepeat x (m + n) = (v.pushRepeat x m).bind fun u => u.pushRepeat x n := by
  induction m generalizing v with
  | zero =>
    rw [Nat.zero_add]
    rfl
  | succ m ih =>
    have h1 : m + 1 + n = (m + n) + 1 := by omega
    rw [h1]
    show (v.push x).bind _ = ((v.push x).bind _).bind _
    cases v.push x with
    | none => rfl
    | some u => exact ih u

/-- `Models` pins down `leftover` as a function of the committed bit count. -/
theorem models_leftover {v : BitsVec} {vals : List Nat} (hM : Models v vals) :
    v.leftover = if v.units * v.bits = 0 then v.max_bits
      else if v.units * v.bits % v.max_bits = 0 then 0
      else v.max_bits - v.units * v.bits % v.max_bits := by
  obtain ⟨hb, hu, hv, hne, hw, hl, hsh, hfull, hval⟩ := hM
  have hW : 0 < v.max_bits := by omega
  have hdm : v.max_bits * (v.units * v.bits / v.max_bits) +
      v.units * v.bits % v.max_bits = v.units * v.bits := Nat.div_add_mod _ _
  have hmlt : v.units * v.bits % v.max_bits < v.max_bits := Nat.mod_lt _ hW
  have hdvd : v.max_bits ∣ (v.leftover + v.units * v.bits % v.max_bits) := by
    have heq : v.leftover + v.units * v.bits % v.max_bits =
        v.inner.length * v.max_bits -
        v.max_bits * (v.units * v.bits / v.max_bits) := by
      omega
    rw [heq]
    exact Nat.dvd_sub' (dvd_mul_left _ _) (dvd_mul_right _ _)
  obtain ⟨k, hk⟩ := hdvd
  have hk2 : k ≤ 1 := by
    by_contra hk2
    push_neg at hk2
    have : 2 * v.max_bits ≤ v.max_bits * k := by
      calc 2 * v.max_bits = v.max_bits * 2 := by ring
        _ ≤ v.max_bits * k := Nat.mul_le_mul_left _ hk2
    omega
  rcases Nat.eq_zero_or_pos (v.units * v.bits) with hT | hT
  · rw [if_pos hT]
    exact hfull.mpr hT
  · rw [if_neg (by omega)]
    have hTW : ¬ v.leftover = v.max_bits := fun h => by omega
    have hk01 : k = 0 ∨ k = 1 := by omega
    by_cases hm : v.units * v.bits % v.max_bits = 0
    · rw [if_pos hm]
      rcases hk01 with hk0 | hk1
      · rw [hk0, Nat.mul_zero] at hk
        omega
      · rw [hk1, Nat.mul_one] at hk
        omega
    · rw [if_neg hm]
      rcases hk01 with hk0 | hk1
      · rw [hk0, Nat.mul_zero] at hk
        omega
      · rw [hk1, Nat.mul_one] at hk
        omega

/-! ### `extend_with_element` analysis -/

theorem push_none {v : BitsVec} {x : Nat} (hx : ¬ x < 2 ^ v.bits) :
    v.push x = none := by
  unfold BitsVec.push
  rw [if_neg (fun h => hx (shiftRight_eq_zero_iff.mp h))]

theorem set_getD_self (l : List Nat) : ∀ i, i < l.length →
    l.set i (l.getD i 0) = l := by
  induction l with
  | nil => intro i hi; simp at hi
  | cons y ys ih =>
    intro i hi
    rcases i with _ | i
    · rfl
    · have := ih i (by simpa using hi)
      show y :: ys.set i (ys.getD i 0) = y :: ys
      rw [this]

theorem getD_append_right (l₁ l₂ : List Nat) (j : Nat) :
    (l₁ ++ l₂).getD (l₁.length + j) 0 = l₂.getD j 0 := by
  induction l₁ with
  | nil => simp
  | cons a as ih =>
    have h1 : (a :: as).length + j = (as.length + j) + 1 := by
      simp
      omega
    rw [h1]
    show (as ++ l₂).getD (as.length + j) 0 = l₂.getD j 0
    exact ih

theorem set_append_right (l₁ l₂ : List Nat) (j a : Nat) :
    (l₁ ++ l₂).set (l₁.length + j) a = l₁ ++ l₂.set j a := by
  induction l₁ with
  | nil => simp
  | cons b bs ih =>
    have h1 : (b :: bs).length + j = (bs.length + j) + 1 := by
      simp
      omega
    rw [h1]
    show b :: (bs ++ l₂).set (bs.length + j) a = b :: (bs ++ l₂.set j a)
    rw [ih]

/-- Pushing into a brand-new vector writes the value left-aligned into the
single zero word. -/
theorem push_fresh {W b x : Nat} (hb : b ≤ W) (hx : x < 2 ^ b) :
    BitsVec.push ⟨[0], 0, b, W, W⟩ x =
      some ⟨[x * 2 ^ (W - b)], 1, b, W, W - b⟩ := by
  have h := push_eq_of_le (v := ⟨[0], 0, b, W, W⟩) hx hb (le_refl W) (dvd_zero _)
  rw [h]
  simp

/-- Pushing into a word-aligned well-formed vector opens a fresh word
containing exactly the value, left-aligned. -/
theorem push_aligned {v : BitsVec} {vals : List Nat} {x : Nat}
    (hM : Models v vals) (hal : v.leftover = 0) (hx : x < 2 ^ v.bits) :
    v.push x = some ⟨v.inner ++ [x * 2 ^ (v.max_bits - v.bits)],
      v.units + 1, v.bits, v.max_bits, v.max_bits - v.bits⟩ := by
  have hM' := hM
  obtain ⟨hb, hu, hv, hne, hw, hl, hsh, hfull, hval⟩ := hM
  have hW : 0 < v.max_bits := by omega
  have hbpos : 0 < v.bits := by
    by_contra hb0
    push_neg at hb0
    have hb00 : v.bits = 0 := by omega
    have : v.leftover = v.max_bits := hfull.mpr (by simp [hb00])
    omega
  have hL : 0 < v.inner.length := List.length_pos.mpr hne
  have hlast := last_word_eq hw hne
  have hSmod : beVal v.max_bits v.inner % 2 ^ v.max_bits % 2 ^ v.leftover = 0 := by
    rw [Nat.mod_mod_of_dvd _ (pow_dvd_pow 2 hl), hval, Nat.mul_mod_left]
  have hdvd : 2 ^ v.leftover ∣ v.inner.getD (v.inner.length - 1) 0 := by
    rw [hlast]
    exact Nat.dvd_of_mod_eq_zero hSmod
  rw [push_eq_of_lt hx (by omega) hb hne hdvd]
  have h1 : v.bits - v.leftover = v.bits := by omega
  have h2 : x / 2 ^ v.bits = 0 := Nat.div_eq_of_lt hx
  have h3 : x % 2 ^ v.bits = x := Nat.mod_eq_of_lt hx
  rw [h1, h2, h3, Nat.add_zero, set_getD_self _ _ (by omega)]

/-- A push acts identically on the tail component of a concatenated
vector: pre-pending fully packed words to the storage commutes with
`push`. -/
theorem push_graft {v t : BitsVec} {tvals : List Nat} {x : Nat}
    (hMt : Models t tvals) (hx : x < 2 ^ t.bits)
    (hbits : t.bits = v.bits) (hmax : t.max_bits = v.max_bits) :
    ∀ u', t.push x = some u' →
    BitsVec.push ⟨v.inner ++ t.inner, v.units + t.units, v.bits, v.max_bits, t.leftover⟩ x
      = some ⟨v.inner ++ u'.inner, v.units + u'.units, v.bits, v.max_bits, u'.leftover⟩ := by
  intro u' hp
  have hMt' := hMt
  obtain ⟨hb, hu, hv, hne, hw, hl, hsh, hfull, hval⟩ := hMt
  have hL : 0 < t.inner.length := List.length_pos.mpr hne
  have hlast := last_word_eq hw hne
  have hSmod : beVal t.max_bits t.inner % 2 ^ t.max_bits % 2 ^ t.leftover = 0 := by
    rw [Nat.mod_mod_of_dvd _ (pow_dvd_pow 2 hl), hval, Nat.mul_mod_left]
  have hdvd : 2 ^ t.leftover ∣ t.inner.getD (t.inner.length - 1) 0 := by
    rw [hlast]
    exact Nat.dvd_of_mod_eq_zero hSmod
  have hlen : (v.inner ++ t.inner).length - 1 = v.inner.length + (t.inner.length - 1) := by
    simp only [List.length_append]
    omega
  have hgetg : (v.inner ++ t.inner).getD ((v.inner ++ t.inner).length - 1) 0 =
      t.inner.getD (t.inner.length - 1) 0 := by
    rw [hlen, getD_append_right]
  by_cases hc : t.bits ≤ t.leftover
  · rw [push_eq_of_le hx hc hl hdvd] at hp
    have hg := push_eq_of_le (v := ⟨v.inner ++ t.inner, v.units + t.units,
        v.bits, v.max_bits, t.leftover⟩) (x := x)
      (by rw [← hbits]; exact hx) (by rw [← hbits]; exact hc)
      (by rw [← hmax]; exact hl) (by rw [hgetg]; exact hdvd)
    rw [hg]
    obtain rfl : u' = ⟨t.inner.set (t.inner.length - 1)
        (t.inner.getD (t.inner.length - 1) 0 + x * 2 ^ (t.leftover - t.bits)),
        t.units + 1, t.bits, t.max_bits, t.leftover - t.bits⟩ :=
      Option.some.inj hp.symm
    simp only
    congr 1
    refine BitsVec.mk.injEq _ _ _ _ _ _ _ _ _ _ |>.mpr ⟨?_, by omega, rfl, rfl, by rw [hbits]⟩
    rw [hgetg, hlen, set_append_right, hbits]
  · push_neg at hc
    rw [push_eq_of_lt hx hc hb hne hdvd] at hp
    have hg := push_eq_of_lt (v := ⟨v.inner ++ t.inner, v.units + t.units,
        v.bits, v.max_bits, t.leftover⟩) (x := x)
      (by rw [← hbits]; exact hx) (by rw [← hbits]; exact hc)
      (by rw [← hbits, ← hmax]; exact hb) (by simp [hne])
      (by rw [hgetg]; exact hdvd)
    rw [hg]
    obtain rfl : u' = ⟨(t.inner.set (t.inner.length - 1)
        (t.inner.getD (t.inner.length - 1) 0 + x / 2 ^ (t.bits - t.leftover))) ++
        [x % 2 ^ (t.bits - t.leftover) * 2 ^ (t.max_bits - (t.bits - t.leftover))],
        t.units + 1, t.bits, t.max_bits, t.max_bits - (t.bits - t.leftover)⟩ :=
      Option.some.inj hp.symm
    simp only
    congr 1
    refine BitsVec.mk.injEq _ _ _ _ _ _ _ _ _ _ |>.mpr
      ⟨?_, by omega, rfl, rfl, by rw [hbits, hmax]⟩
    rw [hgetg, hlen, set_append_right, ← List.append_assoc, hbits, hmax]

theorem pushRepeat_graft {v : BitsVec} {x n : Nat} :
    ∀ {t : BitsVec} {tvals : List Nat}, Models t tvals → x < 2 ^ t.bits →
    t.bits = v.bits → t.max_bits = v.max_bits →
    ∀ u', t.pushRepeat x n = some u' →
    BitsVec.pushRepeat ⟨v.inner ++ t.inner, v.units + t.units, v.bits, v.max_bits,
      t.leftover⟩ x n
      = some ⟨v.inner ++ u'.inner, v.units + u'.units, v.bits, v.max_bits,
        u'.leftover⟩ := by
  induction n with
  | zero =>
    intro t tvals hMt hx hbits hmax u' hp
    obtain rfl : t = u' := Option.some.inj hp
    rfl
  | succ n ih =>
    intro t tvals hMt hx hbits hmax u' hp
    obtain ⟨t₁, hp1, hMt1, hb1, hm1, _, _⟩ := push_models hMt hx
    have hstep : (t.push x).bind (fun u => u.pushRepeat x n) = some u' := hp
    rw [hp1] at hstep
    have hg := push_graft hMt hx hbits hmax t₁ hp1
    show (BitsVec.push _ x).bind _ = _
    rw [hg]
    exact ih hMt1 (by rw [hb1]; exact hx) (by rw [hb1]; exact hbits)
      (by rw [hm1]; exact hmax) u' hstep

/-- `n ≥ 1` pushes into a word-aligned vector behave as the same pushes into
a brand-new vector, appended word-for-word after the existing storage. -/
theorem pushRepeat_aligned {v : BitsVec} {vals : List Nat} {x n : Nat}
    (hM : Models v vals) (hal : v.leftover = 0) (hx : x < 2 ^ v.bits) (hn : 1 ≤ n) :
    ∀ u', BitsVec.pushRepeat ⟨[0], 0, v.bits, v.max_bits, v.max_bits⟩ x n = some u' →
    v.pushRepeat x n = some ⟨v.inner ++ u'.inner, v.units + u'.units, v.bits,
      v.max_bits, u'.leftover⟩ := by
  intro u' hp
  obtain ⟨m, rfl⟩ : ∃ m, n = m + 1 := ⟨n - 1, by omega⟩
  have hb : v.bits < v.max_bits := hM.1
  have hMf : Models (⟨[0], 0, v.bits, v.max_bits, v.max_bits⟩ : BitsVec) [] :=
    (models_new hb).2
  have hfr := push_fresh (b := v.bits) (W := v.max_bits) (by omega) hx
  have hstep : (BitsVec.push ⟨[0], 0, v.bits, v.max_bits, v.max_bits⟩ x).bind
      (fun u => u.pushRepeat x m) = some u' := hp
  rw [hfr] at hstep
  obtain ⟨t₁, hp1, hMt1, hb1, hm1, _, _⟩ := push_models hMf hx
  rw [hfr] at hp1
  obtain rfl : (⟨[x * 2 ^ (v.max_bits - v.bits)], 1, v.bits, v.max_bits,
      v.max_bits - v.bits⟩ : BitsVec) = t₁ := Option.some.inj hp1
  have hpa := push_aligned hM hal hx
  show (v.push x).bind (fun u => u.pushRepeat x m) = _
  rw [hpa]
  exact pushRepeat_graft (v := v) hMt1 hx rfl rfl u' hstep

/-- Starting from a brand-new vector, some positive number of pushes not
exceeding `W` lands exactly on a word boundary. -/
theorem exists_aligned {W b x : Nat} (hb : b < W) (hbpos : 0 < b)
    (hx : x < 2 ^ b) :
    ∃ k, 1 ≤ k ∧ k ≤ W ∧ ∃ u,
      BitsVec.pushRepeat ⟨[0], 0, b, W, W⟩ x k = some u ∧ u.leftover = 0 := by
  have hW : 0 < W := by omega
  obtain ⟨w', hw'⟩ := Nat.gcd_dvd_left W b
  obtain ⟨b', hb'⟩ := Nat.gcd_dvd_right W b
  have hgpos : 0 < Nat.gcd W b := Nat.gcd_pos_of_pos_left b hW
  refine ⟨w', ?_, ?_, ?_⟩
  · by_contra h
    push_neg at h
    interval_cases w'
    omega
  · calc w' ≤ Nat.gcd W b * w' := Nat.le_mul_of_pos_left w' hgpos
      _ = W := hw'.symm
  · have hMf : Models (⟨[0], 0, b, W, W⟩ : BitsVec) [] := (models_new hb).2
    obtain ⟨u, hp, hMu, hbu, hmu⟩ := pushRepeat_models hMf hx w'
    refine ⟨u, hp, ?_⟩
    have hlu := models_leftover hMu
    have hunits : u.units = w' := by
      rcases hMu with ⟨_, hu2, _⟩
      simp [hu2]
    have hTpos : 0 < u.units * u.bits := by
      rw [hunits, hbu]
      have : 0 < w' := by
        by_contra h
        push_neg at h
        interval_cases w'
        omega
      positivity
    have hTmod : u.units * u.bits % u.max_bits = 0 := by
      rw [hunits, hbu, hmu]
      show w' * b % W = 0
      have hd : w' * b = W * b' := by
        calc w' * b = w' * (Nat.gcd W b * b') := by rw [← hb']
          _ = (Nat.gcd W b * w') * b' := by ring
          _ = W * b' := by rw [← hw']
      rw [hd]
      exact Nat.mul_mod_right W b'
    rw [hlu, if_neg (by omega), if_pos hTmod]

/-- The phase-2 loop terminates at the first word-aligned state, which it
reaches within its fuel. -/
theorem tempLoop_spec {x remain : Nat} (hr : remain ≠ 0) :
    ∀ fuel, ∀ {t : BitsVec} {tvals : List Nat}, Models t tvals →
    x < 2 ^ t.bits →
    (∃ j, j ≤ fuel ∧ ∃ u, t.pushRepeat x j = some u ∧ u.leftover = 0) →
    ∃ j u, t.pushRepeat x j = some u ∧ u.leftover = 0 ∧
      BitsVec.tempLoop x remain t fuel = some u := by
  intro fuel
  induction fuel with
  | zero =>
    intro t tvals hMt hx hterm
    obtain ⟨j, hj, u, hpu, hu0⟩ := hterm
    obtain rfl : j = 0 := by omega
    obtain rfl : t = u := Option.some.inj hpu
    refine ⟨0, t, rfl, hu0, ?_⟩
    unfold BitsVec.tempLoop
    rw [if_pos (Or.inl hu0)]
  | succ fuel ih =>
    intro t tvals hMt hx hterm
    by_cases halt : t.leftover = 0
    · refine ⟨0, t, rfl, halt, ?_⟩
      unfold BitsVec.tempLoop
      rw [if_pos (Or.inl halt)]
    · obtain ⟨j, hj, u, hpu, hu0⟩ := hterm
      obtain ⟨j', rfl⟩ : ∃ j', j = j' + 1 := by
        rcases j with _ | j'
        · obtain rfl : t = u := Option.some.inj hpu
          exact absurd hu0 halt
        · exact ⟨j', rfl⟩
      obtain ⟨t₁, hp1, hMt1, hb1, hm1, _, _⟩ := push_models hMt hx
      have hpu' : t₁.pushRepeat x j' = some u := by
        have : (t.push x).bind (fun w => w.pushRepeat x j') = some u := hpu
        rw [hp1] at this
        exact this
      obtain ⟨j₂, u₂, hp2, hu2, hloop⟩ := ih hMt1 (by rw [hb1]; exact hx)
        ⟨j', by omega, u, hpu', hu0⟩
      refine ⟨j₂ + 1, u₂, ?_, hu2, ?_⟩
      · show (t.push x).bind (fun w => w.pushRepeat x j₂) = some u₂
        rw [hp1]
        exact hp2
      · unfold BitsVec.tempLoop
        rw [if_neg (by push_neg; exact ⟨halt, hr⟩)]
        rw [hp1]
        exact hloop

theorem extendPhase1_aligned {x : Nat} {v : BitsVec} {n : Nat}
    (hal : v.leftover = 0) :
    BitsVec.extendPhase1 x v (n + 1) = some (Sum.inr (v, n + 1)) := by
  unfold BitsVec.extendPhase1
  rw [if_pos hal]

theorem extendPhase1_succ_push {x : Nat} {v v₁ : BitsVec} {n : Nat}
    (hal : v.leftover ≠ 0) (hp : v.push x = some v₁) :
    BitsVec.extendPhase1 x v (n + 1) =
      (if n = 0 then some (Sum.inl v₁) else BitsVec.extendPhase1 x v₁ n) := by
  conv_lhs => unfold BitsVec.extendPhase1
  rw [if_neg hal, hp]

/-- Phase 1 of `extend_with_element` either exhausts the requested count
(early return, equivalent to that many pushes) or stops word-aligned with a
positive count remaining. -/
theorem phase1_spec {x : Nat} :
    ∀ (n : Nat) {v : BitsVec} {vals : List Nat}, Models v vals →
    x < 2 ^ v.bits → 1 ≤ n →
    (∃ v', BitsVec.extendPhase1 x v n = some (Sum.inl v') ∧
      v.pushRepeat x n = some v') ∨
    (∃ v' n', BitsVec.extendPhase1 x v n = some (Sum.inr (v', n')) ∧
      1 ≤ n' ∧ n' ≤ n ∧ v.pushRepeat x (n - n') = some v' ∧ v'.leftover = 0 ∧
      Models v' (vals ++ List.replicate (n - n') x) ∧
      v'.bits = v.bits ∧ v'.max_bits = v.max_bits) := by
  intro n
  induction n with
  | zero =>
    intro v vals hM hx hn
    exact absurd hn (by omega)
  | succ n ih =>
    intro v vals hM hx hn
    by_cases hal : v.leftover = 0
    · right
      refine ⟨v, n + 1, extendPhase1_aligned hal, by omega, le_refl _, ?_, hal, ?_,
        rfl, rfl⟩
      · rw [Nat.sub_self]
        rfl
      · rw [Nat.sub_self]
        simpa using hM
    · obtain ⟨v₁, hp1, hM1, hb1, hm1, _, _⟩ := push_models hM hx
      rcases Nat.eq_zero_or_pos n with hn0 | hnpos
      · left
        refine ⟨v₁, ?_, ?_⟩
        · rw [extendPhase1_succ_push hal hp1, if_pos hn0]
        · show (v.push x).bind (fun u => u.pushRepeat x n) = some v₁
          rw [hp1, hn0]
          rfl
      · rcases ih hM1 (by rw [hb1]; exact hx) hnpos with
          ⟨v', hph, hpr⟩ | ⟨v', n', hph, hn1, hn2, hpr, hal', hM', hb', hm'⟩
        · left
          refine ⟨v', ?_, ?_⟩
          · rw [extendPhase1_succ_push hal hp1, if_neg (by omega)]
            exact hph
          · show (v.push x).bind (fun u => u.pushRepeat x n) = some v'
            rw [hp1]
            exact hpr
        · right
          refine ⟨v', n', ?_, hn1, by omega, ?_, hal', ?_, by omega, by omega⟩
          · rw [extendPhase1_succ_push hal hp1, if_neg (by omega)]
            exact hph
          · have hsub : n + 1 - n' = (n - n') + 1 := by omega
            rw [hsub]
            show (v.push x).bind (fun u => u.pushRepeat x (n - n')) = some v'
            rw [hp1]
            exact hpr
          · have hrep : vals ++ List.replicate (n + 1 - n') x =
                (vals ++ [x]) ++ List.replicate (n - n') x := by
              rw [List.append_assoc]
              congr 1
              have hsub : n + 1 - n' = (n - n') + 1 := by omega
              rw [hsub, List.replicate_succ]
              rfl
            rw [hrep]
            exact hM'

/-- Phase 3 of `extend_with_element` (block copies plus the remainder loop)
is equivalent to `remain` plain pushes, given enough fuel. -/
theorem phase3_spec {x : Nat} {temp : BitsVec} (htpos : 0 < temp.units)
    (htal : temp.leftover = 0)
    (htemp : BitsVec.pushRepeat ⟨[0], 0, temp.bits, temp.max_bits, temp.max_bits⟩
      x temp.units = some temp) :
    ∀ fuel remain, remain ≤ fuel → ∀ {v : BitsVec} {vals : List Nat},
    Models v vals → v.leftover = 0 → x < 2 ^ v.bits →
    temp.bits = v.bits → temp.max_bits = v.max_bits →
    ∃ v₃, BitsVec.extendPhase3 temp x v remain fuel = some v₃ ∧
      v.pushRepeat x remain = some v₃ := by
  intro fuel
  induction fuel with
  | zero =>
    intro remain hrf v vals hM hal hx htb htm
    obtain rfl : remain = 0 := by omega
    refine ⟨v, ?_, rfl⟩
    unfold BitsVec.extendPhase3
    rw [if_neg (by omega)]
    rfl
  | succ fuel ih =>
    intro remain hrf v vals hM hal hx htb htm
    by_cases hge : remain ≥ temp.units
    · have htemp' : BitsVec.pushRepeat ⟨[0], 0, v.bits, v.max_bits, v.max_bits⟩
          x temp.units = some temp := by
        rw [← htb, ← htm]
        exact htemp
      have hpa := pushRepeat_aligned hM hal hx htpos temp htemp'
      obtain ⟨w, hpw, hMw, hbw, hmw⟩ := pushRepeat_models hM hx temp.units
      have hweq : w = ⟨v.inner ++ temp.inner, v.units + temp.units, v.bits,
          v.max_bits, temp.leftover⟩ := by
        rw [hpw] at hpa
        exact Option.some.inj hpa
      have hMw' : Models (⟨v.inner ++ temp.inner, v.units + temp.units, v.bits,
          v.max_bits, temp.leftover⟩ : BitsVec)
          (vals ++ List.replicate temp.units x) := hweq ▸ hMw
      rw [htal] at hMw'
      obtain ⟨v₃, hph3, hpr3⟩ := ih (remain - temp.units) (by omega)
        hMw' rfl (by exact hx) (by rw [htb]) (by rw [htm])
      refine ⟨v₃, ?_, ?_⟩
      · unfold BitsVec.extendPhase3
        rw [if_pos hge]
        have hrec : ({ v with
            inner := v.inner ++ temp.inner
            units := v.units + temp.units } : BitsVec) =
            ⟨v.inner ++ temp.inner, v.units + temp.units, v.bits, v.max_bits, 0⟩ := by
          rw [← hal]
        rw [hrec]
        exact hph3
      · have hsum : remain = temp.units + (remain - temp.units) := by omega
        rw [hsum, pushRepeat_add, hpw, hweq, htal]
        exact hpr3
    · push_neg at hge
      obtain ⟨v₃, hp3, _, _, _⟩ := pushRepeat_models hM hx remain
      refine ⟨v₃, ?_, hp3⟩
      unfold BitsVec.extendPhase3
      rw [if_neg (by omega)]
      exact hp3

/-- On a well-formed vector, `extend_with_element` to a strictly larger
length with an in-range value succeeds and produces exactly the vector that
the corresponding number of plain `push` calls produces. -/
theorem extend_eq_pushRepeat {v : BitsVec} {vals : List Nat} {len x : Nat}
    (hM : Models v vals) (hlen : v.units < len) (hx : x < 2 ^ v.bits) :
    ∃ v', v.extend_with_element len x = some v' ∧
      v.pushRepeat x (len - v.units) = some v' := by
  unfold BitsVec.extend_with_element
  rw [if_pos hlen]
  dsimp only
  have hrem : 1 ≤ len - v.units := by omega
  rcases phase1_spec (len - v.units) hM hx hrem with
    ⟨v', hph, hpr⟩ | ⟨v₁, r₁, hph, hr1, hr2, hpr, hal, hM1, hb1, hm1⟩
  · rw [hph]
    exact ⟨v', rfl, hpr⟩
  · rw [hph]
    dsimp only
    have hM1' := hM1
    obtain ⟨hbv1, hu1, hv1, hne1, hw1, hl1, hsh1, hfull1, hval1⟩ := hM1
    have hW1 : 0 < v₁.max_bits := by omega
    have hbpos : 0 < v₁.bits := by
      by_contra hb0
      push_neg at hb0
      have hb00 : v₁.bits = 0 := by omega
      have : v₁.leftover = v₁.max_bits := hfull1.mpr (by simp [hb00])
      omega
    have hx1 : x < 2 ^ v₁.bits := by
      rw [hb1]
      exact hx
    have hnew : BitsVec.new v₁.max_bits v₁.bits =
        some ⟨[0], 0, v₁.bits, v₁.max_bits, v₁.max_bits⟩ := (models_new hbv1).1
    rw [hnew]
    dsimp only
    have hfr := push_fresh (W := v₁.max_bits) (b := v₁.bits) (by omega) hx1
    rw [hfr]
    dsimp only
    -- the phase-2 loop data
    have hMf : Models (⟨[0], 0, v₁.bits, v₁.max_bits, v₁.max_bits⟩ : BitsVec) [] :=
      (models_new hbv1).2
    obtain ⟨t₁, hp1, hMt1, hbt1, hmt1, _, _⟩ := push_models hMf hx1
    rw [hfr] at hp1
    obtain rfl : (⟨[x * 2 ^ (v₁.max_bits - v₁.bits)], 1, v₁.bits, v₁.max_bits,
        v₁.max_bits - v₁.bits⟩ : BitsVec) = t₁ := Option.some.inj hp1
    obtain ⟨k, hk1, hkW, u, hpk, hu0⟩ := exists_aligned hbv1 hbpos hx1
    obtain ⟨k', rfl⟩ : ∃ k', k = k' + 1 := ⟨k - 1, by omega⟩
    have hpk' : BitsVec.pushRepeat (⟨[x * 2 ^ (v₁.max_bits - v₁.bits)], 1,
        v₁.bits, v₁.max_bits, v₁.max_bits - v₁.bits⟩ : BitsVec) x k' = some u := by
      have hstep : (BitsVec.push ⟨[0], 0, v₁.bits, v₁.max_bits, v₁.max_bits⟩ x).bind
          (fun w => w.pushRepeat x k') = some u := hpk
      rw [hfr] at hstep
      exact hstep
    obtain ⟨j, tmp, hpj, htmp0, hloop⟩ := tempLoop_spec (x := x)
      (by omega : r₁ ≠ 0) v₁.max_bits hMt1 hx1 ⟨k', by omega, u, hpk', hu0⟩
    rw [hloop]
    dsimp only
    rw [if_neg (by omega : ¬ r₁ = 0)]
    -- properties of the block vector
    obtain ⟨w', hpw', hMw', hbw', hmw'⟩ := pushRepeat_models hMt1 hx1 j
    have hweq : w' = tmp := by
      rw [hpj] at hpw'
      exact Option.some.inj hpw'.symm
    subst hweq
    have hunits : w'.units = j + 1 := by
      obtain ⟨_, hu2, _⟩ := hMw'
      simp [hu2]
    have hbits2 : w'.bits = v₁.bits := by
      rw [hbw']
    have hmax2 : w'.max_bits = v₁.max_bits := by
      rw [hmw']
    have htemp : BitsVec.pushRepeat ⟨[0], 0, w'.bits, w'.max_bits, w'.max_bits⟩
        x w'.units = some w' := by
      rw [hunits, hbits2, hmax2]
      show (BitsVec.push ⟨[0], 0, v₁.bits, v₁.max_bits, v₁.max_bits⟩ x).bind
        (fun t => t.pushRepeat x j) = some w'
      rw [hfr]
      exact hpj
    obtain ⟨v₃, hph3, hpr3⟩ := phase3_spec (by omega) htmp0 htemp r₁ r₁ (le_refl _)
      hM1' hal hx1 hbits2 hmax2
    refine ⟨v₃, hph3, ?_⟩
    have hsum : len - v.units = (len - v.units - r₁) + r₁ := by omega
    rw [hsum, pushRepeat_add, hpr]
    exact hpr3

theorem extendPhase1_push_none {x : Nat} {v : BitsVec} {n : Nat}
    (hal : v.leftover ≠ 0) (hp : v.push x = none) :
    BitsVec.extendPhase1 x v (n + 1) = none := by
  conv_lhs => unfold BitsVec.extendPhase1
  rw [if_neg hal, hp]

/-- `extend_with_element` fails on an out-of-range value (whenever it has
any pushing to do at all). -/
theorem extend_none_of_bad {v : BitsVec} {len x : Nat}
    (hx : ¬ x < 2 ^ v.bits) (hlen : v.units < len) :
    v.extend_with_element len x = none := by
  unfold BitsVec.extend_with_element
  rw [if_pos hlen]
  dsimp only
  obtain ⟨r, hr⟩ : ∃ r, len - v.units = r + 1 := ⟨len - v.units - 1, by omega⟩
  rw [hr]
  by_cases hal : v.leftover = 0
  · rw [extendPhase1_aligned hal]
    dsimp only
    cases hnew : BitsVec.new v.max_bits v.bits with
    | none => rfl
    | some temp0 =>
      dsimp only
      have hb0 : temp0.bits = v.bits := by
        unfold BitsVec.new at hnew
        by_cases hc : v.bits < v.max_bits
        · rw [if_pos hc] at hnew
          obtain rfl := Option.some.inj hnew
          rfl
        · rw [if_neg hc] at hnew
          exact absurd hnew (by simp)
      rw [push_none (by rw [hb0]; exact hx)]
  · rw [extendPhase1_push_none hal (push_none hx)]

/-! ### Reachable states -/

/-- The states producible through the public constructors and mutators of
`BitsVec`: `new`, `push`, `set`, `clear`, `reserve`, `with_capacity`
(= `new` + `reserve`), `extend_with_element` and `with_elements`
(= `new` + `extend_with_element`). -/
inductive Reachable : BitsVec → Prop where
  | of_new : ∀ {W b : Nat} {v : BitsVec}, BitsVec.new W b = some v → Reachable v
  | of_push : ∀ {v v' : BitsVec} {x : Nat}, Reachable v → v.push x = some v' →
      Reachable v'
  | of_set : ∀ {v v' : BitsVec} {i x : Nat}, Reachable v → v.set i x = some v' →
      Reachable v'
  | of_clear : ∀ {v v' : BitsVec}, Reachable v → v.clear = some v' → Reachable v'
  | of_reserve : ∀ {v : BitsVec} {n : Nat}, Reachable v → Reachable (v.reserve n)
  | of_extend : ∀ {v v' : BitsVec} {len x : Nat}, Reachable v →
      v.extend_with_element len x = some v' → Reachable v'

/-- Every reachable vector is well-formed: it decodes to some element
sequence and satisfies all the structural invariants. -/
theorem reachable_models {v : BitsVec} (h : Reachable v) :
    ∃ vals, Models v vals := by
  induction h with
  | of_new hnew =>
    rename_i W b v
    unfold BitsVec.new at hnew
    by_cases hc : b < W
    · rw [if_pos hc] at hnew
      obtain rfl := Option.some.inj hnew
      exact ⟨[], (models_new hc).2⟩
    · rw [if_neg hc] at hnew
      exact absurd hnew (by simp)
  | of_push _ hp ih =>
    rename_i v v' x _
    obtain ⟨vals, hM⟩ := ih
    by_cases hx : x < 2 ^ v.bits
    · obtain ⟨v'', hp'', hM'', _⟩ := push_models hM hx
      rw [hp''] at hp
      obtain rfl := Option.some.inj hp
      exact ⟨_, hM''⟩
    · rw [push_none hx] at hp
      exact absurd hp (by simp)
  | of_set _ hs ih =>
    rename_i v v' i x _
    obtain ⟨vals, hM⟩ := ih
    by_cases hi : i < v.units
    · by_cases hx : x < 2 ^ v.bits
      · obtain ⟨v'', hs'', hM'', _⟩ := set_models hM hi hx
        rw [hs''] at hs
        obtain rfl := Option.some.inj hs
        exact ⟨_, hM''⟩
      · unfold BitsVec.set at hs
        rw [if_pos hi, if_neg (fun hz => hx (shiftRight_eq_zero_iff.mp hz))] at hs
        exact absurd hs (by simp)
    · unfold BitsVec.set at hs
      rw [if_neg hi] at hs
      exact absurd hs (by simp)
  | of_clear _ hc ih =>
    rename_i v v' _
    obtain ⟨vals, hM⟩ := ih
    have hb : v.bits < v.max_bits := hM.1
    unfold BitsVec.clear at hc
    rw [(models_new hb).1] at hc
    obtain rfl := Option.some.inj hc
    exact ⟨[], (models_new hb).2⟩
  | of_reserve _ ih =>
    exact ih
  | of_extend _ he ih =>
    rename_i v v' len x _
    obtain ⟨vals, hM⟩ := ih
    by_cases hlen : v.units < len
    · by_cases hx : x < 2 ^ v.bits
      · obtain ⟨v'', he'', hpr⟩ := extend_eq_pushRepeat hM hlen hx
        rw [he''] at he
        obtain rfl := Option.some.inj he
        obtain ⟨w, hpw, hMw, _, _⟩ := pushRepeat_models hM hx (len - v.units)
        rw [hpw] at hpr
        obtain rfl := Option.some.inj hpr
        exact ⟨_, hMw⟩
      · rw [extend_none_of_bad hx hlen] at he
        exact absurd he (by simp)
    · unfold BitsVec.extend_with_element at he
      rw [if_neg hlen] at he
      exact absurd he (by simp)

theorem getD_set_eq (l : List Nat) (a : Nat) : ∀ i, i < l.length →
    (l.set i a).getD i 0 = a := by
  induction l with
  | nil => intro i hi; simp at hi
  | cons y ys ih =>
    intro i hi
    rcases i with _ | i
    · rfl
    · exact ih i (by simpa using hi)

/-! ### The claims -/

/-- C5: `get` and `set` at any index `i ≥ len()` fail (bounds violation,
modelled as `none` on the panic path), while `checked_get` at the same index
returns absence (`none` as a value); in particular at `i = len()` and at
index 0 of an empty vector. -/
theorem c5_out_of_range_behaviour (v : BitsVec) (i x : Nat) (hi : v.len ≤ i) :
    v.get i = none ∧ v.set i x = none ∧ v.checked_get i = none := by
  refine ⟨?_, ?_, ?_⟩
  · unfold BitsVec.get
    rw [if_neg (by unfold BitsVec.len at hi; omega)]
  · unfold BitsVec.set
    rw [if_neg (by unfold BitsVec.len at hi; omega)]
  · unfold BitsVec.checked_get
    rw [if_pos (by unfold BitsVec.len at hi; omega)]

theorem c5_witness :
    BitsVec.get ⟨[0], 0, 3, 8, 8⟩ 0 = none ∧
    BitsVec.set ⟨[0], 0, 3, 8, 8⟩ 0 5 = none ∧
    BitsVec.checked_get ⟨[0], 0, 3, 8, 8⟩ 0 = none :=
  c5_out_of_range_behaviour ⟨[0], 0, 3, 8, 8⟩ 0 5 (by decide)

/-- C6: the `PartialEq` implementation compares `units`, `bits` and the raw
storage words: two vectors are equal iff all three coincide, and two
vectors with different bit-widths are never equal regardless of their
decoded contents. -/
theorem c6_equality_structural (a b : BitsVec) :
    (BitsVec.beqv a b = true ↔
      (a.units = b.units ∧ a.bits = b.bits ∧ a.inner = b.inner)) ∧
    (a.bits ≠ b.bits → BitsVec.beqv a b = false) := by
  constructor
  · unfold BitsVec.beqv
    by_cases hc : a.units ≠ b.units ∨ a.bits ≠ b.bits
    · rw [if_pos hc]
      refine ⟨fun h => by simp at h, fun ⟨h1, h2, h3⟩ => ?_⟩
      rcases hc with h | h
      · exact False.elim (h h1)
      · exact False.elim (h h2)
    · rw [if_neg hc]
      push_neg at hc
      simp [hc.1, hc.2, beq_iff_eq]
  · intro hb
    unfold BitsVec.beqv
    rw [if_pos (Or.inr hb)]

theorem c6_witness :
    BitsVec.beqv ⟨[160], 1, 3, 8, 5⟩ ⟨[160], 1, 4, 8, 4⟩ = false :=
  (c6_equality_structural ⟨[160], 1, 3, 8, 5⟩ ⟨[160], 1, 4, 8, 4⟩).2 (by decide)

/-- C7: `new(bits)` fails exactly when `bits ≥ W`, and on success produces
an empty vector with one zero storage word, `element_count = 0` and
`leftover = W`. -/
theorem c7_new_contract (W b : Nat) :
    (BitsVec.new W b = none ↔ W ≤ b) ∧
    (b < W → BitsVec.new W b = some ⟨[0], 0, b, W, W⟩) := by
  constructor
  · unfold BitsVec.new
    by_cases hc : b < W
    · rw [if_pos hc]
      simp
      omega
    · rw [if_neg hc]
      simp
      omega
  · intro hc
    exact (models_new hc).1

theorem c7_witness :
    BitsVec.new 8 3 = some ⟨[0], 0, 3, 8, 8⟩ :=
  (c7_new_contract 8 3).2 (by decide)

/-- C1: for every bit width `1 ≤ b < W` and every sequence of values below
`2 ^ b`, pushing them in order into `new(b)` yields `len() = n` and `get(i)`
decodes every element back exactly, whether or not elements straddle word
boundaries. -/
theorem c1_push_get_roundtrip (W b : Nat) (vals : List Nat) (_hb1 : 1 ≤ b)
    (hbW : b < W) (hvals : ∀ x ∈ vals, x < 2 ^ b) :
    ∃ v, (BitsVec.new W b).bind (fun u => u.pushAll vals) = some v ∧
      v.len = vals.length ∧
      ∀ i, i < vals.length → v.get i = some (vals.getD i 0) := by
  obtain ⟨hnew, hMf⟩ := models_new hbW
  obtain ⟨v, hp, hM, hbv, hwv⟩ := pushAll_models hMf (by simpa using hvals)
  have hu : v.units = vals.length := by
    obtain ⟨_, hu2, _⟩ := hM
    simpa using hu2
  refine ⟨v, ?_, hu, ?_⟩
  · rw [hnew]
    exact hp
  · intro i hi
    have := get_models (by simpa using hM) (by omega : i < v.units)
    simpa using this

theorem c1_witness :
    ∃ v, (BitsVec.new 8 3).bind (fun u => u.pushAll [1, 2, 3, 4, 5, 6, 7]) = some v ∧
      v.len = 7 ∧ ∀ i, i < 7 → v.get i = some ([1, 2, 3, 4, 5, 6, 7].getD i 0) := by
  have h := c1_push_get_roundtrip 8 3 [1, 2, 3, 4, 5, 6, 7] (by decide) (by decide)
    (by decide)
  simpa using h

/-- C2: on any well-formed vector, `set(i, v)` followed by `get(i)` returns
`v`, and every other in-range index decodes to exactly what it decoded to
before the `set`. -/
theorem c2_set_get_frame {v : BitsVec} {vals : List Nat} {i x : Nat}
    (hM : Models v vals) (hi : i < v.len) (hx : x < 2 ^ v.bits) :
    ∃ v', v.set i x = some v' ∧ v'.get i = some x ∧
      ∀ j, j < v.len → j ≠ i → v'.get j = v.get j := by
  have hi' : i < v.units := hi
  obtain ⟨v', hs, hM', hb', hm', hu', hl', hlen'⟩ := set_models hM hi' hx
  have hn : i < vals.length := by
    obtain ⟨_, hu2, _⟩ := hM
    omega
  refine ⟨v', hs, ?_, ?_⟩
  · have hg := get_models hM' (by omega : i < v'.units)
    rw [hg, getD_set_eq vals x i hn]
  · intro j hj hji
    have hg1 := get_models hM' (by unfold BitsVec.len at hj; omega : j < v'.units)
    have hg2 := get_models hM (by unfold BitsVec.len at hj; omega : j < v.units)
    rw [hg1, hg2, getD_set_ne vals i j x (fun h => hji h.symm)]

theorem c2_witness :
    ∃ v', BitsVec.set ⟨[41, 203, 184], 7, 3, 8, 3⟩ 2 5 = some v' ∧
      v'.get 2 = some 5 ∧
      ∀ j, j < BitsVec.len ⟨[41, 203, 184], 7, 3, 8, 3⟩ → j ≠ 2 →
        v'.get j = BitsVec.get ⟨[41, 203, 184], 7, 3, 8, 3⟩ j :=
  @c2_set_get_frame ⟨[41, 203, 184], 7, 3, 8, 3⟩ [1, 2, 3, 4, 5, 6, 7] 2 5
    (by decide) (by decide) (by decide)

/-- C4: after every operation (`new`, `push`, `set`, `clear`, `reserve`,
`extend_with_element` and their derived constructors) the storage is
non-empty, `leftover ≤ W`, and the bit accounting
`(storage words) * W = element_count * element_bits + leftover` holds. -/
theorem c4_invariants {v : BitsVec} (h : Reachable v) :
    v.inner ≠ [] ∧ v.leftover ≤ v.max_bits ∧
      v.inner.length * v.max_bits = v.units * v.bits + v.leftover := by
  obtain ⟨vals, hM⟩ := reachable_models h
  obtain ⟨hb, hu, hv, hne, hw, hl, hsh, hfull, hval⟩ := hM
  exact ⟨hne, hl, hsh⟩

theorem c4_witness :
    BitsVec.inner ⟨[0], 0, 3, 8, 8⟩ ≠ [] ∧
      BitsVec.leftover ⟨[0], 0, 3, 8, 8⟩ ≤ BitsVec.max_bits ⟨[0], 0, 3, 8, 8⟩ ∧
      (BitsVec.inner ⟨[0], 0, 3, 8, 8⟩).length * BitsVec.max_bits ⟨[0], 0, 3, 8, 8⟩ =
        BitsVec.units ⟨[0], 0, 3, 8, 8⟩ * BitsVec.bits ⟨[0], 0, 3, 8, 8⟩ +
        BitsVec.leftover ⟨[0], 0, 3, 8, 8⟩ :=
  c4_invariants (Reachable.of_new (W := 8) (b := 3) (by rfl))

/-- C10: for every well-formed vector and in-range index, the storage-word
reads of `checked_get` (`i*bits/W`, plus `i*bits/W + 1` when the element
spans words) are within the storage bounds, and `checked_get` is total:
it yields a value exactly on in-range indices and absence otherwise. -/
theorem c10_checked_get_safe {v : BitsVec} {vals : List Nat} (hM : Models v vals) :
    (∀ i, i < v.units →
      i * v.bits / v.max_bits < v.inner.length ∧
      (v.max_bits - i * v.bits % v.max_bits < v.bits →
        i * v.bits / v.max_bits + 1 < v.inner.length)) ∧
    (∀ i, (v.checked_get i).isSome = true ↔ i < v.units) := by
  constructor
  · intro i hi
    exact ⟨get_idx_lt hM hi, fun hspan => get_idx_succ_lt hM hi hspan⟩
  · intro i
    constructor
    · intro hs
      by_contra hi
      push_neg at hi
      have : v.checked_get i = none := by
        unfold BitsVec.checked_get
        rw [if_pos (by omega)]
      rw [this] at hs
      simp at hs
    · intro hi
      rw [checked_get_models hM hi]
      rfl

theorem c10_witness :
    (∀ i, i < BitsVec.units ⟨[41, 203, 184], 7, 3, 8, 3⟩ →
      i * 3 / 8 < 3 ∧ (8 - i * 3 % 8 < 3 → i * 3 / 8 + 1 < 3)) ∧
    (∀ i, (BitsVec.checked_get ⟨[41, 203, 184], 7, 3, 8, 3⟩ i).isSome = true ↔
      i < BitsVec.units ⟨[41, 203, 184], 7, 3, 8, 3⟩) :=
  @c10_checked_get_safe ⟨[41, 203, 184], 7, 3, 8, 3⟩ [1, 2, 3, 4, 5, 6, 7] (by decide)

/-- C3 counterexample: at `length = 0` the bulk constructor fails
(`extend_with_element` requires a strictly larger final length), while zero
sequential pushes from `new` succeed and produce a vector, so the two are
not structurally equal for *all* lengths. -/
theorem c3_counterexample :
    BitsVec.with_elements 8 3 0 5 = none ∧
      ((BitsVec.new 8 3).bind (fun v => v.pushRepeat 5 0)).isSome = true := by
  decide

/-- C3 (amended): for every bit width `bits < W`, in-range `value` and
`length ≥ 1`, `with_elements(bits, length, value)` succeeds and is
structurally equal (in the sense of the `PartialEq` implementation) to the
vector built by `length` sequential `push(value)` calls from `new(bits)`. -/
theorem c3_bulk_fill_equiv (W b len x : Nat) (hb : b < W) (hx : x < 2 ^ b)
    (hlen : 1 ≤ len) :
    ∃ a a', BitsVec.with_elements W b len x = some a ∧
      (BitsVec.new W b).bind (fun v => v.pushRepeat x len) = some a' ∧
      BitsVec.beqv a a' = true := by
  obtain ⟨hnew, hMf⟩ := models_new hb
  obtain ⟨a, he, hp⟩ := extend_eq_pushRepeat hMf (by show 0 < len; omega)
    (by show x < 2 ^ b; exact hx)
  refine ⟨a, a, ?_, ?_, ?_⟩
  · unfold BitsVec.with_elements
    rw [hnew]
    exact he
  · rw [hnew]
    show BitsVec.pushRepeat _ x len = some a
    simpa using hp
  · unfold BitsVec.beqv
    rw [if_neg (by push_neg; exact ⟨rfl, rfl⟩)]
    simp

theorem c3_witness :
    ∃ a a', BitsVec.with_elements 8 3 7 5 = some a ∧
      (BitsVec.new 8 3).bind (fun v => v.pushRepeat 5 7) = some a' ∧
      BitsVec.beqv a a' = true :=
  c3_bulk_fill_equiv 8 3 7 5 (by decide) (by decide) (by decide)

theorem beVal_inj (w : Nat) : ∀ (l₁ l₂ : List Nat), l₁.length = l₂.length →
    (∀ x ∈ l₁, x < 2 ^ w) → (∀ x ∈ l₂, x < 2 ^ w) →
    beVal w l₁ = beVal w l₂ → l₁ = l₂ := by
  intro l₁
  induction l₁ with
  | nil =>
    intro l₂ hlen _ _ _
    cases l₂ with
    | nil => rfl
    | cons y ys => simp at hlen
  | cons x xs ih =>
    intro l₂ hlen h₁ h₂ hval
    cases l₂ with
    | nil => simp at hlen
    | cons y ys =>
      have hlen' : xs.length = ys.length := by simpa using hlen
      have hX : beVal w xs < 2 ^ (xs.length * w) :=
        beVal_lt w xs fun z hz => h₁ z (List.mem_cons_of_mem x hz)
      have hY : beVal w ys < 2 ^ (xs.length * w) := by
        rw [hlen']
        exact beVal_lt w ys fun z hz => h₂ z (List.mem_cons_of_mem y hz)
      rw [beVal_cons, beVal_cons, ← hlen'] at hval
      have hxy : x = y := by
        have e1 : x * 2 ^ (xs.length * w) + beVal w xs =
            beVal w xs + 2 ^ (xs.length * w) * x := by ring
        have e2 : y * 2 ^ (xs.length * w) + beVal w ys =
            beVal w ys + 2 ^ (xs.length * w) * y := by ring
        have d1 : (x * 2 ^ (xs.length * w) + beVal w xs) / 2 ^ (xs.length * w) = x := by
          rw [e1, Nat.add_mul_div_left _ _ (by positivity), Nat.div_eq_of_lt hX,
            Nat.zero_add]
        have d2 : (y * 2 ^ (xs.length * w) + beVal w ys) / 2 ^ (xs.length * w) = y := by
          rw [e2, Nat.add_mul_div_left _ _ (by positivity), Nat.div_eq_of_lt hY,
            Nat.zero_add]
        rw [← d1, ← d2, hval]
      subst hxy
      have hXY : beVal w xs = beVal w ys := by omega
      rw [ih ys hlen' (fun z hz => h₁ z (List.mem_cons_of_mem x hz))
        (fun z hz => h₂ z (List.mem_cons_of_mem x hz)) hXY]

/-- Two well-formed vectors of equal bit width over the same decoded
sequence have word-for-word identical storage. -/
theorem models_unique_storage {v₁ v₂ : BitsVec} {vals : List Nat}
    (h₁ : Models v₁ vals) (h₂ : Models v₂ vals) (hb : v₁.bits = v₂.bits)
    (hm : v₁.max_bits = v₂.max_bits) : BitsVec.beqv v₁ v₂ = true := by
  have hl₁ := models_leftover h₁
  have hl₂ := models_leftover h₂
  obtain ⟨hb₁, hu₁, hv₁, hne₁, hw₁, hle₁, hsh₁, hfull₁, hval₁⟩ := h₁
  obtain ⟨hb₂, hu₂, hv₂, hne₂, hw₂, hle₂, hsh₂, hfull₂, hval₂⟩ := h₂
  have hW : 0 < v₁.max_bits := by omega
  have hunits : v₁.units = v₂.units := by omega
  have hleq : v₁.leftover = v₂.leftover := by
    rw [hl₁, hl₂, hunits, hb, hm]
  have hLeq : v₁.inner.length = v₂.inner.length := by
    have h3 : v₁.inner.length * v₁.max_bits = v₂.inner.length * v₁.max_bits := by
      rw [hsh₁, hunits, hb, hleq, hm]
      exact hsh₂.symm
    exact Nat.eq_of_mul_eq_mul_right hW h3
  have hinner : v₁.inner = v₂.inner := by
    apply beVal_inj v₁.max_bits v₁.inner v₂.inner hLeq hw₁ (by rw [hm]; exact hw₂)
    rw [hval₁, hm, hval₂, ← hb, ← hleq]
  unfold BitsVec.beqv
  rw [if_neg (by push_neg; exact ⟨by omega, hb⟩)]
  simp [hinner]

/-- C9: for every reachable vector the bit stream carries zeros in every
position past the `element_count * element_bits` committed bits (in
particular the unused low `leftover` bits of the last word are zero), and
consequently word-for-word storage equality coincides with
decoded-sequence equality at equal bit widths. -/
theorem c9_unused_bits_zero :
    (∀ v : BitsVec, Reachable v →
      beVal v.max_bits v.inner % 2 ^ v.leftover = 0) ∧
    (∀ (v₁ v₂ : BitsVec) (vals : List Nat), Models v₁ vals → Models v₂ vals →
      v₁.bits = v₂.bits → v₁.max_bits = v₂.max_bits →
      BitsVec.beqv v₁ v₂ = true) := by
  constructor
  · intro v h
    obtain ⟨vals, hM⟩ := reachable_models h
    obtain ⟨hb, hu, hv, hne, hw, hl, hsh, hfull, hval⟩ := hM
    rw [hval]
    exact Nat.mul_mod_left _ _
  · intro v₁ v₂ vals h₁ h₂ hb hm
    exact models_unique_storage h₁ h₂ hb hm

theorem c9_witness :
    beVal 8 (BitsVec.inner ⟨[160], 1, 3, 8, 5⟩) % 2 ^ 5 = 0 ∧
      BitsVec.beqv ⟨[160], 1, 3, 8, 5⟩ ⟨[160], 1, 3, 8, 5⟩ = true :=
  ⟨c9_unused_bits_zero.1 ⟨[160], 1, 3, 8, 5⟩
    (Reachable.of_push (x := 5)
      (Reachable.of_new (W := 8) (b := 3) (v := ⟨[0], 0, 3, 8, 8⟩) (by decide))
      (by decide)),
   c9_unused_bits_zero.2 ⟨[160], 1, 3, 8, 5⟩ ⟨[160], 1, 3, 8, 5⟩ [5]
    (by decide) (by decide) rfl rfl⟩

theorem sint_round_trip (N Wp : Nat) (x : Int) (hN : 0 < N) (hNW : N ≤ Wp)
    (hlo : -2 ^ (N - 1) ≤ x) (hhi : x < 2 ^ (N - 1)) :
    sintFromUsize N (sintIntoUsize Wp x) = x := by
  have h2N : (2 : Int) ^ (N - 1) * 2 = 2 ^ N := by
    rw [← pow_succ]
    congr 1
    omega
  have hNle : (2 : Int) ^ (N - 1) ≤ 2 ^ N := by
    apply pow_le_pow_right₀ one_le_two
    omega
  have hWle : (2 : Int) ^ N ≤ 2 ^ Wp := pow_le_pow_right₀ one_le_two hNW
  have hWN : (2 : Int) ^ Wp = 2 ^ N * 2 ^ (Wp - N) := by
    rw [← pow_add]
    congr 1
    omega
  have hc1 : ((2 ^ (N - 1) : Nat) : Int) = 2 ^ (N - 1) := by push_cast; rfl
  have hc2 : ((2 ^ N : Nat) : Int) = 2 ^ N := by push_cast; rfl
  unfold sintIntoUsize
  rcases le_or_lt 0 x with hx | hx
  · have hxW : x < 2 ^ Wp := lt_of_lt_of_le (lt_of_lt_of_le hhi hNle) hWle
    rw [Int.emod_eq_of_lt hx hxW]
    have hxint : x < ((2 ^ N : Nat) : Int) := by
      rw [hc2]
      exact lt_of_lt_of_le hhi hNle
    have hxint1 : x < ((2 ^ (N - 1) : Nat) : Int) := by
      rw [hc1]
      exact hhi
    have hxN : x.toNat < 2 ^ N := by omega
    have hcond : x.toNat < 2 ^ (N - 1) := by omega
    unfold sintFromUsize
    show (if x.toNat % 2 ^ N < 2 ^ (N - 1) then ((x.toNat % 2 ^ N : Nat) : Int)
      else ((x.toNat % 2 ^ N : Nat) : Int) - 2 ^ N) = x
    rw [Nat.mod_eq_of_lt hxN, if_pos hcond]
    exact Int.toNat_of_nonneg hx
  · have hge0 : 0 ≤ x + 2 ^ Wp := by
      have : (2 : Int) ^ (N - 1) ≤ 2 ^ Wp := le_trans hNle hWle
      omega
    have hmod : x % 2 ^ Wp = x + 2 ^ Wp := by
      have h1 : (x + 2 ^ Wp * 1) % 2 ^ Wp = x % 2 ^ Wp :=
        Int.add_mul_emod_self_left x (2 ^ Wp) 1
      have h2 : (x + 2 ^ Wp) % 2 ^ Wp = x + 2 ^ Wp :=
        Int.emod_eq_of_lt hge0 (by omega)
      rw [mul_one] at h1
      rw [← h1, h2]
    rw [hmod]
    have hn : (((x + 2 ^ Wp).toNat : Nat) : Int) = x + 2 ^ Wp :=
      Int.toNat_of_nonneg hge0
    have hrint : (((x + 2 ^ Wp).toNat % 2 ^ N : Nat) : Int) = x + 2 ^ N := by
      push_cast
      rw [hn, hWN, Int.add_mul_emod_self_left]
      have h1 : (x + 2 ^ N * 1) % 2 ^ N = x % 2 ^ N :=
        Int.add_mul_emod_self_left x (2 ^ N) 1
      rw [mul_one] at h1
      rw [← h1]
      apply Int.emod_eq_of_lt
      · omega
      · omega
    have hge : (2 : Int) ^ (N - 1) ≤ x + 2 ^ N := by
      have := h2N
      omega
    have hcond : ¬ ((x + 2 ^ Wp).toNat % 2 ^ N < 2 ^ (N - 1)) := by omega
    unfold sintFromUsize
    show (if (x + 2 ^ Wp).toNat % 2 ^ N < 2 ^ (N - 1)
        then (((x + 2 ^ Wp).toNat % 2 ^ N : Nat) : Int)
        else (((x + 2 ^ Wp).toNat % 2 ^ N : Nat) : Int) - 2 ^ N) = x
    rw [if_neg hcond, hrint]
    ring

/-- C8: codec round trips. Decoding after encoding is the identity for
booleans; for characters with ordinal below 256; for unsigned integers of
declared width `N` at most the platform width `Wp` whose value fits in `N`
bits; and for signed integers of positive declared width `N ≤ Wp` whose
value lies in the two's-complement range `[-2^(N-1), 2^(N-1))`. -/
theorem c8_codec_round_trip :
    (∀ b : Bool, boolFromUsize (boolIntoUsize b) = some b) ∧
    (∀ c : Nat, c < 256 → charFromUsize (charIntoUsize c) = c) ∧
    (∀ N Wp x : Nat, N ≤ Wp → x < 2 ^ N →
      uintFromUsize N (uintIntoUsize Wp x) = x) ∧
    (∀ (N Wp : Nat) (x : Int), 0 < N → N ≤ Wp → -2 ^ (N - 1) ≤ x →
      x < 2 ^ (N - 1) → sintFromUsize N (sintIntoUsize Wp x) = x) := by
  refine ⟨fun b => ?_, fun c hc => ?_, fun N Wp x hNW hx => ?_,
    fun N Wp x hN hNW hlo hhi => sint_round_trip N Wp x hN hNW hlo hhi⟩
  · cases b <;> rfl
  · show c % 256 % 256 = c
    omega
  · show x % 2 ^ Wp % 2 ^ N = x
    rw [Nat.mod_mod_of_dvd x (pow_dvd_pow 2 hNW), Nat.mod_eq_of_lt hx]

theorem c8_witness :
    boolFromUsize (boolIntoUsize true) = some true ∧
      charFromUsize (charIntoUsize 200) = 200 ∧
      uintFromUsize 8 (uintIntoUsize 32 200) = 200 ∧
      sintFromUsize 8 (sintIntoUsize 32 (-100)) = -100 :=
  ⟨c8_codec_round_trip.1 true,
   c8_codec_round_trip.2.1 200 (by decide),
   c8_codec_round_trip.2.2.1 8 32 200 (by decide) (by decide),
   c8_codec_round_trip.2.2.2 8 32 (-100) (by decide) (by decide)
     (by norm_num) (by norm_num)⟩
